import Mathlib

/-!
# Verification of the jkr save-file codec

This development gives a shallow embedding of the jkr package: a codec that
serializes a Lua table (gopher-lua) to a Lua table-literal text and back.

Byte sequences are modelled as `List Nat` (each element a byte value, or for
the parser an expected byte value).  Lua numbers are modelled at exact integer
precision (`Int`); the claims that depend on 64-bit floating-point formatting
are outside this embedding and are flagged as such in the results.

The encoder side embeds `stringPack` from `src/marshal.go` (cycle detection by
a visited set, no early stop on error) and the second `stringPack` variant
from `src/unnamed/part_000` (no visited set, first error stops).  Value
quoting embeds Go's `strconv.Quote` (the meaning of the `%q` verb used by the
source); Unicode printability is reproduced exactly on the Latin-1 range
(the only range the theorems below exercise) and approximated as printable
above U+00FF.

The decoder side embeds what `UnmarshalRead` in `src/unmarshal.go` does: it
deflates (modelled as the identity on the literal text, since the flate
round trip is lossless), strips a leading `return ` prefix, and evaluates the
remainder as a Lua 5.1 expression through `gopher-lua`'s `DoString`.  The Lua
evaluation is modelled as a recursive-descent evaluator of the literal subset
of Lua 5.1 expressions relevant to this format: table constructors with
bracketed keys, double- and single-quoted strings with Lua 5.1 escape
sequences, integer numerals with unary minus, and the `true`/`false`/`nil`
keywords.  Constructs of full Lua outside this subset (identifiers, operators,
function calls, positional table fields, fractional and hexadecimal numerals)
are not modelled; no theorem below depends on their acceptance or rejection.
-/

/-! ## Byte classification helpers -/

/-- Whitespace bytes skipped by the Lua lexer: space, tab, LF, VT, FF, CR. -/
def isWs (b : Nat) : Bool :=
  b == 32 || b == 9 || b == 10 || b == 11 || b == 12 || b == 13

/-- ASCII decimal digit. -/
def isDigit (b : Nat) : Bool := 48 ≤ b && b ≤ 57

/-- Lua identifier continuation byte: letters, digits, underscore. -/
def identChar (b : Nat) : Bool :=
  (48 ≤ b && b ≤ 57) || (65 ≤ b && b ≤ 90) || (97 ≤ b && b ≤ 122) || b == 95

/-- Lowercase hexadecimal digit byte for a value below 16, as used by Go's
`strconv` escape output. -/
def hexDigit (n : Nat) : Nat := if n < 10 then 48 + n else 87 + n

/-- Two lowercase hex digits of a byte (Go `\xHH`). -/
def hex2 (b : Nat) : List Nat := [hexDigit (b / 16 % 16), hexDigit (b % 16)]

/-- Four lowercase hex digits (Go `\uHHHH`). -/
def hex4 (r : Nat) : List Nat :=
  [hexDigit (r / 4096 % 16), hexDigit (r / 256 % 16),
   hexDigit (r / 16 % 16), hexDigit (r % 16)]

/-- Eight lowercase hex digits (Go `\UHHHHHHHH`). -/
def hex8 (r : Nat) : List Nat :=
  hex4 (r / 65536) ++ hex4 (r % 65536)

/-! ## Decimal rendering of numbers

`fmt.Sprintf` with verb `v` on a `lua.LNumber` holding an integral value
prints `int64` decimal text (`LNumber.String` special-cases integral values).
The model renders `Int` the same way. -/

/-- Decimal digit bytes of a natural number, most significant first, with a
recursion budget (any budget above the value itself is enough). -/
def natBytesF : Nat → Nat → List Nat
  | 0, _ => []
  | f + 1, n =>
    if n < 10 then [48 + n]
    else natBytesF f (n / 10) ++ [48 + n % 10]

/-- Decimal digit bytes of a natural number, most significant first. -/
def natBytes (n : Nat) : List Nat := natBytesF (n + 1) n

theorem natBytesF_irrel : ∀ f1 f2 n, n < f1 → n < f2 → natBytesF f1 n = natBytesF f2 n := by
  intro f1
  induction f1 with
  | zero => intro f2 n h1; omega
  | succ g ih =>
    intro f2 n h1 h2
    rcases f2 with _ | g2
    · omega
    · rw [natBytesF, natBytesF]
      by_cases hn : n < 10
      · simp [hn]
      · simp only [hn, if_false]
        have hd : n / 10 < n := Nat.div_lt_self (by omega) (by omega)
        rw [ih g2 (n / 10) (by omega) (by omega)]

/-- The defining recurrence of `natBytes`. -/
theorem natBytes_eq (n : Nat) :
    natBytes n = if n < 10 then [48 + n] else natBytes (n / 10) ++ [48 + n % 10] := by
  rw [natBytes, natBytesF]
  by_cases hn : n < 10
  · simp [hn]
  · simp only [hn, if_false]
    have hd : n / 10 < n := Nat.div_lt_self (by omega) (by omega)
    rw [natBytesF_irrel n (n / 10 + 1) (n / 10) (by omega) (by omega)]
    rfl

/-- Decimal text of an integer, with a leading minus sign when negative. -/
def intBytes : Int → List Nat
  | .ofNat n => natBytes n
  | .negSucc m => 45 :: natBytes (m + 1)

/-- Value of a digit-byte list, most significant first. -/
def digitsToNat (ds : List Nat) : Nat := ds.foldl (fun a b => a * 10 + (b - 48)) 0

/-- Splits the longest digit prefix from a byte list. -/
def takeDigits : List Nat → (List Nat × List Nat)
  | [] => ([], [])
  | b :: r =>
    if isDigit b then
      let p := takeDigits r
      (b :: p.1, p.2)
    else ([], b :: r)

/-! ## Go string quoting (`strconv.Quote`, the `%q` verb)

`stringPack` renders every Lua string (key or value) with `fmt.Sprintf`'s
`%q` verb, which is `strconv.Quote`: the input is scanned as UTF-8; printable
runes pass through unescaped except the double quote and the backslash, which
are backslash-escaped; control bytes get named or `\xHH` escapes; other
non-printable runes get `\uHHHH` or `\UHHHHHHHH` escapes; bytes that are not
valid UTF-8 get `\xHH` escapes. -/

/-- Go's `strconv.IsPrint`, reproduced exactly for code points below U+0100
(printable ASCII, and the Latin-1 block U+00A1 through U+00FF except the soft
hyphen U+00AD; NBSP U+00A0 and C1 controls are not printable).  Printability
above U+00FF follows the full Unicode tables in Go and is approximated here as
printable; no theorem below evaluates this function above U+00FF. -/
def goIsPrint (r : Nat) : Bool :=
  (32 ≤ r && r ≤ 126) || (161 ≤ r && r ≤ 255 && r != 173) || 256 ≤ r

/-- UTF-8 encoding of a code point (used by Go to re-emit printable runes). -/
def utf8Enc (r : Nat) : List Nat :=
  if r < 128 then [r]
  else if r < 2048 then [192 + r / 64, 128 + r % 64]
  else if r < 65536 then [224 + r / 4096, 128 + r / 64 % 64, 128 + r % 64]
  else [240 + r / 262144, 128 + r / 4096 % 64, 128 + r / 64 % 64, 128 + r % 64]

/-- Go's `appendEscapedRune` for quote byte `"`: how one decoded rune is
rendered inside a quoted Go string literal. -/
def escRune (r : Nat) : List Nat :=
  if r == 34 || r == 92 then [92, r]
  else if goIsPrint r then utf8Enc r
  else if r == 7 then [92, 97]
  else if r == 8 then [92, 98]
  else if r == 9 then [92, 116]
  else if r == 10 then [92, 110]
  else if r == 11 then [92, 118]
  else if r == 12 then [92, 102]
  else if r == 13 then [92, 114]
  else if r < 32 || r == 127 then 92 :: 120 :: hex2 r
  else if r < 65536 then 92 :: 117 :: hex4 r
  else 92 :: 85 :: hex8 r

/-- An invalid UTF-8 byte is emitted as a `\xHH` escape. -/
def badByte (b : Nat) : List Nat := 92 :: 120 :: hex2 b

/-- One step of `utf8.DecodeRune` on a lead byte `b0` and the following
bytes: the decoded code point and how many continuation bytes it uses, or
`none` when the sequence is invalid (invalid lead or continuation bytes,
overlong forms, surrogates, values above U+10FFFF). -/
def utf8Step (b0 : Nat) (r0 : List Nat) : Option (Nat × Nat) :=
  if 194 ≤ b0 && b0 ≤ 223 then
    match r0 with
    | b1 :: _ =>
      if 128 ≤ b1 && b1 ≤ 191 then some ((b0 - 192) * 64 + (b1 - 128), 1) else none
    | [] => none
  else if 224 ≤ b0 && b0 ≤ 239 then
    match r0 with
    | b1 :: b2 :: _ =>
      if (if b0 == 224 then 160 ≤ b1 && b1 ≤ 191
          else if b0 == 237 then 128 ≤ b1 && b1 ≤ 159
          else 128 ≤ b1 && b1 ≤ 191) && (128 ≤ b2 && b2 ≤ 191) then
        some ((b0 - 224) * 4096 + (b1 - 128) * 64 + (b2 - 128), 2)
      else none
    | _ => none
  else if 240 ≤ b0 && b0 ≤ 244 then
    match r0 with
    | b1 :: b2 :: b3 :: _ =>
      if (if b0 == 240 then 144 ≤ b1 && b1 ≤ 191
          else if b0 == 244 then 128 ≤ b1 && b1 ≤ 143
          else 128 ≤ b1 && b1 ≤ 191) && (128 ≤ b2 && b2 ≤ 191)
          && (128 ≤ b3 && b3 ≤ 191) then
        some ((b0 - 240) * 262144 + (b1 - 128) * 4096 + (b2 - 128) * 64 + (b3 - 128), 3)
      else none
    | _ => none
  else none

/-- Body of Go's `strconv.Quote`: scan the bytes as UTF-8 and escape each
decoded rune; an ASCII byte is its own rune, and a byte at which decoding
fails is escaped individually as `\xHH`. -/
def goQuoteAuxF : Nat → List Nat → List Nat
  | 0, _ => []
  | _, [] => []
  | f + 1, b0 :: r0 =>
    if b0 < 128 then escRune b0 ++ goQuoteAuxF f r0
    else
      match utf8Step b0 r0 with
      | some (ru, k) => escRune ru ++ goQuoteAuxF f (r0.drop k)
      | none => badByte b0 ++ goQuoteAuxF f r0

/-- Body of `strconv.Quote` on a byte list (the budget of the worker above is
one more than the length, which always suffices since every step consumes at
least one byte). -/
def goQuoteAux (l : List Nat) : List Nat := goQuoteAuxF (l.length + 1) l

/-- Go's `strconv.Quote`: the escaped bytes surrounded by double quotes. -/
def goQuote (s : List Nat) : List Nat := 34 :: goQuoteAux s ++ [34]

/-! ## The Lua value model

`gopher-lua` values, as the encoder dispatches on them (`value.Type()`).
Tables and functions are reference values: a table is an identity (an index
into a heap of entry lists) so that the cycle detection of `marshal.go` can
be stated; a function carries an opaque identity.  `Number` is modelled at
exact integer precision. -/

inductive LVal where
  | nil : LVal
  | boolean : Bool → LVal
  | number : Int → LVal
  | str : List Nat → LVal
  | function : Nat → LVal
  | table : Nat → LVal
deriving DecidableEq

/-- The table heap: index `tid` holds the entry list of table `tid`, in the
order `LTable.ForEach` yields the pairs. -/
def Heap := List (List (LVal × LVal))

/-- Entries of a table identity (a `*lua.LTable` always dereferences; a
dangling identity is read as empty and never occurs in the theorems). -/
def entriesOf (heap : Heap) (tid : Nat) : List (LVal × LVal) :=
  (List.get? heap tid).getD []

/-- The byte string `is`. -/
def isBytes : List Nat := [105, 115]

/-- The byte string `MANUAL_REPLACE`. -/
def mrBytes : List Nat := [77, 65, 78, 85, 65, 76, 95, 82, 69, 80, 76, 65, 67, 69]

/-- The byte string `return ` written by the non-recursive `stringPack` call
and stripped by `UnmarshalRead`. -/
def retBytes : List Nat := [114, 101, 116, 117, 114, 110, 32]

/-- `tbl.RawGetString(s)`: the value stored under string key `s`, if any. -/
def rawGetStr (entries : List (LVal × LVal)) (s : List Nat) : Option LVal :=
  (entries.find? (fun e => e.1 == LVal.str s)).map (fun e => e.2)

/-- The placeholder test of `stringPack`: the nested table has an `is` entry
whose value is a function (`fn.Type() == lua.LTFunction`). -/
def hasIsFunction (heap : Heap) (tid : Nat) : Bool :=
  match rawGetStr (entriesOf heap tid) isBytes with
  | some (LVal.function _) => true
  | _ => false

/-- Key serialization of `stringPack`: string keys as `[%q]`, number keys as
`[%v]`, anything else is the invalid-key error (`none`). -/
def renderKey : LVal → Option (List Nat)
  | LVal.str s => some (91 :: goQuote s ++ [93])
  | LVal.number n => some (91 :: intBytes n ++ [93])
  | _ => none

/-- The `"MANUAL_REPLACE"` literal emitted for placeholder tables, quotes
included. -/
def mrQuoted : List Nat := 34 :: mrBytes ++ [34]

/-- Encoder errors.  `cyclic` is the `circular reference detected in table`
error, `invalidKey` the `invalid key type` error, `unsupported k` the
`unsupported value type ... for key k` error, and `wrap k e` the
`error packing table value for key k` wrapper added by `%w` wrapping. -/
inductive PackErr where
  | cyclic : PackErr
  | invalidKey : PackErr
  | unsupported : List Nat → PackErr
  | wrap : List Nat → PackErr → PackErr
deriving DecidableEq

/-- Whether an encoder error is the cyclic-reference error, through any
number of key wrappers. -/
def PackErr.isCyclic : PackErr → Bool
  | PackErr.cyclic => true
  | PackErr.wrap _ e => e.isCyclic
  | _ => false

/-! ## The encoder of `src/marshal.go`

`stringPack(data, recursive, visited)`: fails fast on a visited table,
marks the table visited, folds over the entries.  The `ForEach` callback has
no early return on a pending error, so a later erroneous entry overwrites
`gerr` and traversal continues; the first component of the fold state is the
accumulated `strings.Builder` content after the opening brace.

The `Nat` fuel argument bounds the recursion depth; `none` means the
computation did not finish within the given depth (the Go original has no
such bound and would recurse forever where every fuel value yields `none`).
-/

/-- The `ForEach` fold of `stringPack` from `src/marshal.go`, with the
recursive table case handled by the given packer `pack` (instantiated with
`stringPack` at the next lower budget).  The fold state is the accumulated
builder content `b` and the pending error `gerr`; the callback has no early
return, so a later erroneous entry overwrites `gerr` and the fold continues.
-/
def packEntriesWith (pack : Nat → Bool → List Nat → Option (Except PackErr (List Nat)))
    (heap : Heap) : List (LVal × LVal) → List Nat → List Nat →
    Option PackErr → Option (List Nat × Option PackErr)
  | [], _, b, gerr => some (b, gerr)
  | (key, value) :: rest, visited, b, gerr =>
    match renderKey key with
    | none => packEntriesWith pack heap rest visited b (some PackErr.invalidKey)
    | some k =>
      match value with
      | LVal.table tid' =>
        if hasIsFunction heap tid' then
          packEntriesWith pack heap rest visited (b ++ k ++ 61 :: mrQuoted ++ [44]) gerr
        else
          match pack tid' true visited with
          | none => none
          | some (Except.error e) =>
              packEntriesWith pack heap rest visited b (some (PackErr.wrap k e))
          | some (Except.ok v) =>
              packEntriesWith pack heap rest visited (b ++ k ++ 61 :: v ++ [44]) gerr
      | LVal.str s =>
          packEntriesWith pack heap rest visited (b ++ k ++ 61 :: goQuote s ++ [44]) gerr
      | LVal.boolean true =>
          packEntriesWith pack heap rest visited (b ++ k ++ 61 :: [116, 114, 117, 101] ++ [44]) gerr
      | LVal.boolean false =>
          packEntriesWith pack heap rest visited
            (b ++ k ++ 61 :: [102, 97, 108, 115, 101] ++ [44]) gerr
      | LVal.number n =>
          packEntriesWith pack heap rest visited (b ++ k ++ 61 :: intBytes n ++ [44]) gerr
      | LVal.nil => packEntriesWith pack heap rest visited b (some (PackErr.unsupported k))
      | LVal.function _ =>
          packEntriesWith pack heap rest visited b (some (PackErr.unsupported k))

def stringPack (heap : Heap) : Nat → Nat → Bool → List Nat → Option (Except PackErr (List Nat))
  | 0, _, _, _ => none
  | f + 1, tid, recursive, visited =>
    if visited.contains tid then some (Except.error PackErr.cyclic)
    else
      match packEntriesWith (stringPack heap f) heap (entriesOf heap tid)
          (tid :: visited) [] none with
      | none => none
      | some (_, some e) => some (Except.error e)
      | some (b, none) =>
          some (Except.ok ((if recursive then [] else retBytes) ++ 123 :: b ++ [125]))

/-- The entry fold at the budget `stringPack` uses for nested tables. -/
def packEntries (heap : Heap) (f : Nat) : List (LVal × LVal) → List Nat → List Nat →
    Option PackErr → Option (List Nat × Option PackErr) :=
  packEntriesWith (stringPack heap f) heap

/-! ## The encoder of `src/unnamed/part_000` (used by `Writer.Write`)

`stringPack(data, recursive)`: no visited set — nothing guards against
cycles — and the callback returns immediately once `firstError` is set, so
the first error is kept and later entries are skipped. -/

/-- The `ForEach` fold of the `stringPack` in `src/unnamed/part_000`: once
`firstError` is set the callback returns immediately, so the first error is
kept and later entries are skipped; no visited set exists. -/
def packEntriesWithW (pack : Nat → Bool → Option (Except PackErr (List Nat)))
    (heap : Heap) : List (LVal × LVal) → List Nat →
    Option PackErr → Option (List Nat × Option PackErr)
  | [], b, ferr => some (b, ferr)
  | (key, value) :: rest, b, ferr =>
    match ferr with
    | some e => some (b, some e)
    | none =>
      match renderKey key with
      | none => packEntriesWithW pack heap rest b (some PackErr.invalidKey)
      | some k =>
        match value with
        | LVal.table tid' =>
          if hasIsFunction heap tid' then
            packEntriesWithW pack heap rest (b ++ k ++ 61 :: mrQuoted ++ [44]) none
          else
            match pack tid' true with
            | none => none
            | some (Except.error e) =>
                packEntriesWithW pack heap rest b (some (PackErr.wrap k e))
            | some (Except.ok v) =>
                packEntriesWithW pack heap rest (b ++ k ++ 61 :: v ++ [44]) none
        | LVal.str s =>
            packEntriesWithW pack heap rest (b ++ k ++ 61 :: goQuote s ++ [44]) none
        | LVal.boolean true =>
            packEntriesWithW pack heap rest (b ++ k ++ 61 :: [116, 114, 117, 101] ++ [44]) none
        | LVal.boolean false =>
            packEntriesWithW pack heap rest
              (b ++ k ++ 61 :: [102, 97, 108, 115, 101] ++ [44]) none
        | LVal.number n =>
            packEntriesWithW pack heap rest (b ++ k ++ 61 :: intBytes n ++ [44]) none
        | LVal.nil => packEntriesWithW pack heap rest b (some (PackErr.unsupported k))
        | LVal.function _ =>
            packEntriesWithW pack heap rest b (some (PackErr.unsupported k))

def stringPackW (heap : Heap) : Nat → Nat → Bool → Option (Except PackErr (List Nat))
  | 0, _, _ => none
  | f + 1, tid, recursive =>
    match packEntriesWithW (stringPackW heap f) heap (entriesOf heap tid) [] none with
    | none => none
    | some (_, some e) => some (Except.error e)
    | some (b, none) =>
        some (Except.ok ((if recursive then [] else retBytes) ++ 123 :: b ++ [125]))

/-- The writer-side entry fold at the budget `stringPackW` uses. -/
def packEntriesW (heap : Heap) (f : Nat) : List (LVal × LVal) → List Nat →
    Option PackErr → Option (List Nat × Option PackErr) :=
  packEntriesWithW (stringPackW heap f) heap

/-- Reachability between table identities: one or more entry-value steps
from the entries of table `a` lead to table `b`.  A heap is acyclic when no
table reaches itself. -/
inductive TReach (heap : Heap) : Nat → Nat → Prop where
  | step1 : ∀ {a b k}, (k, LVal.table b) ∈ entriesOf heap a → TReach heap a b
  | step : ∀ {a b c k}, (k, LVal.table b) ∈ entriesOf heap a → TReach heap b c →
      TReach heap a c

/-! ## Decoded values

Values produced by the decoder.  Decoded tables are entry lists in insertion
order (the order `gopher-lua` iterates them); a decoded value has no
identity, and two distinct constructed tables are never equal as Lua keys. -/

inductive TVal where
  | boolean : Bool → TVal
  | number : Int → TVal
  | str : List Nat → TVal
  | table : List (TVal × TVal) → TVal

/-- Lua raw key equality on decoded values: numbers and strings by value,
booleans by value, tables by identity — and every constructed table is
fresh, so table keys never compare equal. -/
def keyEq : TVal → TVal → Bool
  | TVal.boolean a, TVal.boolean b => a == b
  | TVal.number a, TVal.number b => a == b
  | TVal.str a, TVal.str b => a == b
  | _, _ => false

/-- `rawset` on a decoded table: replaces the value of an existing equal key
in place, else appends the new entry. -/
def setEntry : List (TVal × TVal) → TVal → TVal → List (TVal × TVal)
  | [], k, v => [(k, v)]
  | (k0, v0) :: rest, k, v =>
    if keyEq k0 k then (k0, v) :: rest else (k0, v0) :: setEntry rest k v

/-- `rawset` with a nil value: removes the key. -/
def delEntry : List (TVal × TVal) → TVal → List (TVal × TVal)
  | [], _ => []
  | (k0, v0) :: rest, k => if keyEq k0 k then rest else (k0, v0) :: delEntry rest k

/-- A parsed Lua expression value: either nil or a proper value. -/
inductive PVal where
  | nil : PVal
  | val : TVal → PVal

/-! ## The decoder

`UnmarshalRead` evaluates the decompressed text with a Lua 5.1 interpreter:
`l.DoString(fmt.Sprintf("zw_data = (%s)", strings.TrimPrefix(content, "return ")))`.
The model is a recursive-descent evaluator of the Lua 5.1 literal grammar
actually reachable from this format (see the file header for its scope).
Parser results carry the remaining input; a parse error carries the input
suffix at which the failure was detected, from which the byte offset of the
error is recovered (the Go error value carries a source position as well). -/

/-- Skips Lua whitespace. -/
def skipWs : List Nat → List Nat
  | [] => []
  | b :: r => if isWs b then skipWs r else b :: r

/-- Single-character Lua 5.1 escapes after a backslash: the named control
escapes, the escaped backslash and quotes, and an escaped line break. -/
def escByte (c : Nat) : Option Nat :=
  if c == 97 then some 7
  else if c == 98 then some 8
  else if c == 102 then some 12
  else if c == 110 then some 10
  else if c == 114 then some 13
  else if c == 116 then some 9
  else if c == 118 then some 11
  else if c == 92 || c == 34 || c == 39 then some c
  else if c == 10 || c == 13 then some 10
  else none

/-- Decimal `\ddd` escape after a backslash: `c` is the first byte after the
backslash, `r2` the bytes after it.  Yields the byte value and how many
further bytes of `r2` belong to the escape; `none` when `c` is not a digit or
the value exceeds 255 (the `escape sequence too large` lexical error). -/
def decEscape (c : Nat) (r2 : List Nat) : Option (Nat × Nat) :=
  if isDigit c then
    match r2 with
    | [] => some (c - 48, 0)
    | c2 :: rr =>
      if isDigit c2 then
        match rr with
        | [] => some ((c - 48) * 10 + (c2 - 48), 1)
        | c3 :: _ =>
          if isDigit c3 then
            let d := (c - 48) * 100 + (c2 - 48) * 10 + (c3 - 48)
            if d ≤ 255 then some (d, 2) else none
          else some ((c - 48) * 10 + (c2 - 48), 1)
      else some (c - 48, 0)
  else none

/-- Lua 5.1 short-string body after the opening quote `q`, with a recursion
budget: plain bytes up to the closing quote, single-character escapes, and
decimal `\ddd` escapes; an unknown escape, a raw line break, or the end of
input is a lexical error. -/
def luaStrBodyF : Nat → Nat → List Nat → Except (List Nat) (List Nat × List Nat)
  | 0, _, l => Except.error l
  | _, _, [] => Except.error []
  | f + 1, q, b :: r =>
    if b == q then Except.ok ([], r)
    else if b == 10 || b == 13 then Except.error (b :: r)
    else if b == 92 then
      match r with
      | [] => Except.error []
      | c :: r2 =>
        match escByte c with
        | some d => (luaStrBodyF f q r2).map (fun p => (d :: p.1, p.2))
        | none =>
          match decEscape c r2 with
          | some (d, k) => (luaStrBodyF f q (r2.drop k)).map (fun p => (d :: p.1, p.2))
          | none => Except.error (c :: r2)
    else (luaStrBodyF f q r).map (fun p => (b :: p.1, p.2))

/-- The string body scanner at its sufficient budget (every step of the
worker consumes at least one byte, so one more than the length is enough). -/
def luaStrBody (q : Nat) (l : List Nat) : Except (List Nat) (List Nat × List Nat) :=
  luaStrBodyF (l.length + 1) q l

theorem luaStrBodyF_succ (f q b : Nat) (r : List Nat) :
    luaStrBodyF (f + 1) q (b :: r) =
      (if b == q then Except.ok ([], r)
      else if b == 10 || b == 13 then Except.error (b :: r)
      else if b == 92 then
        match r with
        | [] => Except.error []
        | c :: r2 =>
          match escByte c with
          | some d => (luaStrBodyF f q r2).map (fun p => (d :: p.1, p.2))
          | none =>
            match decEscape c r2 with
            | some (d, k) => (luaStrBodyF f q (r2.drop k)).map (fun p => (d :: p.1, p.2))
            | none => Except.error (c :: r2)
      else (luaStrBodyF f q r).map (fun p => (b :: p.1, p.2))) := rfl

theorem luaStrBodyF_irrel : ∀ f1 f2 q l, l.length < f1 → l.length < f2 →
    luaStrBodyF f1 q l = luaStrBodyF f2 q l := by
  intro f1
  induction f1 with
  | zero => intro f2 q l h1; simp at h1
  | succ g ih =>
    intro f2 q l h1 h2
    rcases f2 with _ | g2
    · simp at h2
    rcases l with _ | ⟨b, r⟩
    · rfl
    rw [luaStrBodyF_succ, luaStrBodyF_succ]
    simp only [List.length_cons] at h1 h2
    by_cases hq : (b == q) = true
    · simp [hq]
    have hq' : (b == q) = false := by simpa using hq
    by_cases hnl : (b == 10 || b == 13) = true
    · simp [hq', hnl]
    have hnl' : (b == 10 || b == 13) = false := by simpa using hnl
    by_cases hbs : (b == 92) = true
    · simp only [hq', hnl', hbs, Bool.false_eq_true, if_true, if_false]
      rcases r with _ | ⟨c, r2⟩
      · rfl
      simp only [List.length_cons] at h1 h2
      rcases hesc : escByte c with _ | d
      · rcases hdec : decEscape c r2 with _ | ⟨d, k⟩
        · simp [hesc, hdec]
        · have hdrop : (r2.drop k).length ≤ r2.length := by
            simp [List.length_drop]
          simp only [hesc, hdec]
          rw [ih g2 q (r2.drop k) (by omega) (by omega)]
      · simp only [hesc]
        rw [ih g2 q r2 (by omega) (by omega)]
    · have hbs' : (b == 92) = false := by simpa using hbs
      simp only [hq', hnl', hbs', Bool.false_eq_true, if_false]
      rw [ih g2 q r (by omega) (by omega)]

/-- Integer numeral: longest digit run; a following `.`, `e` or `E` would be
a fractional or exponent numeral, which is outside this integer-precision
model and rejected here (the interpreter accepts it; no theorem relies on
this rejection). -/
def parseNum (input : List Nat) : Except (List Nat) (Nat × List Nat) :=
  match input with
  | [] => Except.error []
  | b :: _ =>
    if isDigit b then
      let p := takeDigits input
      match p.2 with
      | c :: r =>
        if c == 46 || c == 101 || c == 69 then Except.error (c :: r)
        else Except.ok (digitsToNat p.1, c :: r)
      | [] => Except.ok (digitsToNat p.1, [])
    else Except.error input

/-- One bracketed-key field after its opening bracket, parsed with the given
expression parser `pe`: `k]=v` followed by whatever comes next.  The field
acts on the accumulated table as a `rawset`: a nil key is the
`table index is nil` runtime error, a nil value removes the key. -/
def parseFieldWith (pe : List Nat → Except (List Nat) (PVal × List Nat))
    (r : List Nat) (acc : List (TVal × TVal)) :
    Except (List Nat) (List (TVal × TVal) × List Nat) :=
  match pe r with
  | Except.error e => Except.error e
  | Except.ok (k, r1) =>
    match skipWs r1 with
    | 93 :: r2 =>
      match skipWs r2 with
      | 61 :: r3 =>
        match pe r3 with
        | Except.error e => Except.error e
        | Except.ok (v, r4) =>
          match k with
          | PVal.nil => Except.error (skipWs r4)
          | PVal.val tk =>
            match v with
            | PVal.nil => Except.ok (delEntry acc tk, r4)
            | PVal.val tv => Except.ok (setEntry acc tk tv, r4)
      | rem => Except.error rem
    | rem => Except.error rem

mutual

/-- A Lua expression of the literal subset: table constructor, short string,
integer numeral with optional unary minus, or a `true`, `false` or `nil`
keyword (checked up to an identifier boundary). -/
def parseExpr : Nat → List Nat → Except (List Nat) (PVal × List Nat)
  | 0, input => Except.error input
  | f + 1, input =>
    match skipWs input with
    | [] => Except.error []
    | b :: r =>
      if b == 123 then
        (parseFields f r []).map (fun p => (PVal.val (TVal.table p.1), p.2))
      else if b == 34 then
        (luaStrBody 34 r).map (fun p => (PVal.val (TVal.str p.1), p.2))
      else if b == 39 then
        (luaStrBody 39 r).map (fun p => (PVal.val (TVal.str p.1), p.2))
      else if b == 45 then
        (parseNum (skipWs r)).map (fun p => (PVal.val (TVal.number (-(p.1 : Int))), p.2))
      else if isDigit b then
        (parseNum (b :: r)).map (fun p => (PVal.val (TVal.number (p.1 : Int)), p.2))
      else if b == 116 then
        if r.take 3 == [114, 117, 101] ∧ ((r.drop 3).head?.map identChar).getD false = false
        then Except.ok (PVal.val (TVal.boolean true), r.drop 3)
        else Except.error (b :: r)
      else if b == 102 then
        if r.take 4 == [97, 108, 115, 101] ∧ ((r.drop 4).head?.map identChar).getD false = false
        then Except.ok (PVal.val (TVal.boolean false), r.drop 4)
        else Except.error (b :: r)
      else if b == 110 then
        if r.take 2 == [105, 108] ∧ ((r.drop 2).head?.map identChar).getD false = false
        then Except.ok (PVal.nil, r.drop 2)
        else Except.error (b :: r)
      else Except.error (b :: r)

/-- Table constructor fields: bracketed-key fields `[k]=v` separated by `,`
or `;`, with an optional trailing separator before the closing brace.  The
budget falls by one per field, and by one from the enclosing expression, so
any budget above the table constructor's nesting-plus-field count is enough
— in particular the decoder's whole-input length budget, since every field
consumes bytes. -/
def parseFields : Nat → List Nat → List (TVal × TVal) →
    Except (List Nat) (List (TVal × TVal) × List Nat)
  | 0, input, _ => Except.error input
  | f + 1, input, acc =>
    match skipWs input with
    | [] => Except.error []
    | b :: r =>
      if b == 125 then Except.ok (acc, r)
      else if b == 91 then
        match parseFieldWith (parseExpr f) r acc with
        | Except.error e => Except.error e
        | Except.ok (acc', r4) =>
          match skipWs r4 with
          | 44 :: r5 => parseFields f r5 acc'
          | 59 :: r5 => parseFields f r5 acc'
          | 125 :: r5 => Except.ok (acc', r5)
          | rem => Except.error rem
      else Except.error (b :: r)

end

/-- `strings.TrimPrefix(content, "return ")`: drops the prefix exactly when
present. -/
def dropRet : List Nat → List Nat
  | 114 :: 101 :: 116 :: 117 :: 114 :: 110 :: 32 :: r => r
  | s => s

/-- Decode errors: `malformed pos` models the error `DoString` returns for
input Lua rejects (the Go error carries a source position; `pos` is the byte
offset at which the model's evaluator failed), `notATable` models the
`unable to typecast as lua.LTable` error returned when the evaluated
expression is not a table. -/
inductive DecodeErr where
  | malformed : Nat → DecodeErr
  | notATable : DecodeErr
deriving DecidableEq

/-- The decode pipeline of `UnmarshalRead` after decompression: strip a
leading `return `, evaluate the remainder as a parenthesized Lua expression
(so the whole remainder must be one expression), and require the result to
be a table, whose entries are returned. -/
def decodeText (input : List Nat) : Except DecodeErr (List (TVal × TVal)) :=
  let body := dropRet input
  match parseExpr (body.length + 1) body with
  | Except.error rem => Except.error (DecodeErr.malformed (body.length - rem.length))
  | Except.ok (v, rest) =>
    if skipWs rest == [] then
      match v with
      | PVal.val (TVal.table es) => Except.ok es
      | _ => Except.error DecodeErr.notATable
    else Except.error (DecodeErr.malformed (body.length - (skipWs rest).length))

/-- `UnmarshalRead(in, out)`: on success the decoded table is copied over
`*out`; every error path returns before that assignment, leaving `out`
untouched.  The first component is the returned error, the second the
contents of `out` after the call. -/
def UnmarshalRead (input : List Nat) (out : List (TVal × TVal)) :
    Except DecodeErr Unit × List (TVal × TVal) :=
  match decodeText input with
  | Except.error e => (Except.error e, out)
  | Except.ok es => (Except.ok (), es)

/-! ## Rendered form of a decoded tree

`renderT` is the literal text the encoder produces for a value whose decoded
shape is known; the pack lemmas below prove that `stringPack` emits exactly
this text, and the parse lemmas prove the decoder maps it back. -/

mutual

/-- Literal text of one value. -/
def renderT : TVal → List Nat
  | TVal.boolean true => [116, 114, 117, 101]
  | TVal.boolean false => [102, 97, 108, 115, 101]
  | TVal.number n => intBytes n
  | TVal.str s => goQuote s
  | TVal.table es => 123 :: renderFields es ++ [125]

/-- Literal text of a field list, each field `[k]=v,`. -/
def renderFields : List (TVal × TVal) → List Nat
  | [] => []
  | (k, v) :: rest => 91 :: renderT k ++ 93 :: 61 :: renderT v ++ 44 :: renderFields rest

end

mutual

/-- Parser budget of a value: `parseExpr` succeeds on `renderT t` at any fuel
of at least `psize t`. -/
def psize : TVal → Nat
  | TVal.boolean _ => 1
  | TVal.number _ => 1
  | TVal.str _ => 1
  | TVal.table es => 1 + psizeF es

/-- Parser budget of a field list. -/
def psizeF : List (TVal × TVal) → Nat
  | [] => 1
  | (k, v) :: rest => 1 + max (psize k) (max (psize v) (psizeF rest))

end

/-- Bytes whose Go escaping is inverted exactly by the Lua 5.1 lexer: the
named control escapes (BEL through CR) and printable ASCII (the quote and the
backslash are escaped as themselves on both sides). -/
def safeB (b : Nat) : Bool := (7 ≤ b && b ≤ 13) || (32 ≤ b && b ≤ 126)

/-- A string of safe bytes. -/
def safeStr (s : List Nat) : Bool := s.all safeB

/-- A decoded value usable as a key the encoder accepts: a safe string or a
number. -/
def isKeyB : TVal → Bool
  | TVal.str s => safeStr s
  | TVal.number _ => true
  | _ => false

/-- No two keys of the list compare equal (a real `lua.LTable` never yields
duplicate keys from `ForEach`). -/
def distinctKeys : List (TVal × TVal) → Bool
  | [] => true
  | (k, _) :: rest => rest.all (fun e => !(keyEq k e.1)) && distinctKeys rest

mutual

/-- Safe decoded values: strings safe everywhere, keys are safe strings or
numbers, and key lists are duplicate-free. -/
def safeVal : TVal → Bool
  | TVal.boolean _ => true
  | TVal.number _ => true
  | TVal.str s => safeStr s
  | TVal.table es => distinctKeys es && safeEntries es

/-- Safety of a field list. -/
def safeEntries : List (TVal × TVal) → Bool
  | [] => true
  | (k, v) :: rest => isKeyB k && safeVal v && safeEntries rest

end

/-- Pointwise unfolding of an entry list by a given value unfolding. -/
def reprEntriesWith (rv : LVal → Option TVal) :
    List (LVal × LVal) → Option (List (TVal × TVal))
  | [] => some []
  | (k, v) :: rest =>
    match rv k, rv v, reprEntriesWith rv rest with
    | some k', some v', some rest' => some ((k', v') :: rest')
    | _, _, _ => none

/-- The decoded shape of a heap value, unfolded to depth `fuel`: `none` when
the value (or a key or value inside it) is a nil, a function, or a table
whose unfolding does not finish within the given depth.  A root is an
acyclic table free of callable values exactly when some fuel unfolds it. -/
def reprVal (heap : Heap) : Nat → LVal → Option TVal
  | _, LVal.boolean b => some (TVal.boolean b)
  | _, LVal.number n => some (TVal.number n)
  | _, LVal.str s => some (TVal.str s)
  | _, LVal.nil => none
  | _, LVal.function _ => none
  | 0, LVal.table _ => none
  | f + 1, LVal.table tid =>
      (reprEntriesWith (reprVal heap f) (entriesOf heap tid)).map TVal.table

/-- Entry unfolding at a given depth. -/
def reprEntries (heap : Heap) (f : Nat) : List (LVal × LVal) → Option (List (TVal × TVal)) :=
  reprEntriesWith (reprVal heap f)

/-- The per-entry error of a flat (table-free) entry, in the order the
encoder's switch tests: invalid key first, else unsupported value. -/
def entryErr : LVal × LVal → Option PackErr
  | (k, v) =>
    match renderKey k with
    | none => some PackErr.invalidKey
    | some kb =>
      match v with
      | LVal.nil => some (PackErr.unsupported kb)
      | LVal.function _ => some (PackErr.unsupported kb)
      | _ => none

/-- An entry list with no table values. -/
def flatEntries (es : List (LVal × LVal)) : Bool :=
  es.all (fun e => match e.2 with | LVal.table _ => false | _ => true)

/-! ## Basic lemmas -/

/-- The byte after a rendered token may not extend it: not an identifier
byte and not a decimal point.  The empty remainder qualifies. -/
def boundary (r : List Nat) : Bool :=
  match r.head? with
  | none => true
  | some b => !(identChar b || b == 46)

theorem skipWs_not_ws {b : Nat} (h : isWs b = false) (r : List Nat) :
    skipWs (b :: r) = b :: r := by
  simp [skipWs, h]

theorem isWs_false_of_ge {b : Nat} (h : 33 ≤ b) : isWs b = false := by
  simp only [isWs, Bool.or_eq_false_iff, beq_eq_false_iff_ne, ne_eq]
  omega

theorem natBytes_digits : ∀ n, ∀ b ∈ natBytes n, isDigit b = true := by
  intro n
  induction n using Nat.strong_induction_on with
  | _ n ih =>
    intro b hb
    rw [natBytes_eq] at hb
    by_cases h : n < 10
    · simp [h] at hb
      simp [isDigit]
      omega
    · simp [h] at hb
      rcases hb with h1 | h1
      · exact ih (n / 10) (Nat.div_lt_self (by omega) (by omega)) b h1
      · simp [h1, isDigit]
        omega

theorem natBytes_ne_nil (n : Nat) : natBytes n ≠ [] := by
  rw [natBytes_eq]
  by_cases h : n < 10 <;> simp [h]

theorem digitsToNat_append (a : List Nat) (d : Nat) :
    digitsToNat (a ++ [d]) = digitsToNat a * 10 + (d - 48) := by
  simp [digitsToNat, List.foldl_append]

theorem digitsToNat_natBytes : ∀ n, digitsToNat (natBytes n) = n := by
  intro n
  induction n using Nat.strong_induction_on with
  | _ n ih =>
    rw [natBytes_eq]
    by_cases h : n < 10
    · simp [h, digitsToNat]
    · simp only [h, if_false]
      rw [digitsToNat_append, ih (n / 10) (Nat.div_lt_self (by omega) (by omega))]
      omega

theorem takeDigits_append {ds rest : List Nat} (hds : ∀ b ∈ ds, isDigit b = true)
    (hrest : ∀ b, rest.head? = some b → isDigit b = false) :
    takeDigits (ds ++ rest) = (ds, rest) := by
  induction ds with
  | nil =>
    simp only [List.nil_append]
    cases rest with
    | nil => rfl
    | cons b r =>
      have := hrest b rfl
      simp [takeDigits, this]
  | cons b ds ih =>
    have hb := hds b (by simp)
    simp only [List.cons_append, takeDigits, hb, if_true, List.append_eq]
    rw [ih (fun x hx => hds x (by simp [hx]))]

theorem identChar_of_digit {b : Nat} (h : isDigit b = true) : identChar b = true := by
  simp only [isDigit, Bool.and_eq_true, decide_eq_true_eq] at h
  simp only [identChar, Bool.or_eq_true, Bool.and_eq_true, decide_eq_true_eq]
  omega

theorem boundary_not_digit {rest : List Nat} (h : boundary rest = true) :
    ∀ b, rest.head? = some b → isDigit b = false := by
  intro b hb
  cases hdig : isDigit b with
  | false => rfl
  | true =>
    exfalso
    have hic := identChar_of_digit hdig
    simp [boundary, hb, hic] at h

theorem parseNum_complete (n : Nat) (rest : List Nat) (h : boundary rest = true) :
    parseNum (natBytes n ++ rest) = Except.ok (n, rest) := by
  have hne := natBytes_ne_nil n
  have hds := natBytes_digits n
  have htd : takeDigits (natBytes n ++ rest) = (natBytes n, rest) :=
    takeDigits_append hds (boundary_not_digit h)
  rcases hd : natBytes n with _ | ⟨b, ds⟩
  · exact absurd hd hne
  · have hb : isDigit b = true := hds b (by rw [hd]; simp)
    simp only [List.cons_append, parseNum, hb, if_true]
    rw [← List.cons_append, ← hd, htd]
    have hnum := digitsToNat_natBytes n
    rcases rest with _ | ⟨c, r⟩
    · simp [hnum]
    · have hcond : (c == 46 || c == 101 || c == 69) = false := by
        simp only [boundary, List.head?, Bool.not_eq_true', Bool.or_eq_false_iff] at h
        obtain ⟨h1, h2⟩ := h
        simp only [identChar, Bool.or_eq_false_iff, Bool.and_eq_false_iff,
          decide_eq_false_iff_not, beq_eq_false_iff_ne, ne_eq] at h1
        simp only [Bool.or_eq_false_iff, beq_eq_false_iff_ne, ne_eq]
        have h2' : c ≠ 46 := by simpa using h2
        omega
      simp [hcond, hnum]


/-! ## Safe-byte escaping lemmas -/

theorem escRune_print {b : Nat} (h1 : 32 ≤ b) (h2 : b ≤ 126) (h3 : b ≠ 34)
    (h4 : b ≠ 92) : escRune b = [b] := by
  have c1 : (b == 34 || b == 92) = false := by
    simp only [Bool.or_eq_false_iff, beq_eq_false_iff_ne, ne_eq]
    exact ⟨h3, h4⟩
  have c2 : goIsPrint b = true := by
    simp only [goIsPrint, Bool.or_eq_true, Bool.and_eq_true, decide_eq_true_eq]
    left; left
    exact ⟨h1, h2⟩
  have c3 : b < 128 := by omega
  rw [escRune, if_neg (by simp [c1]), if_pos c2, utf8Enc, if_pos c3]

theorem goQuoteAux_cons_safe {b : Nat} (h : safeB b = true) (s : List Nat) :
    goQuoteAux (b :: s) = escRune b ++ goQuoteAux s := by
  have hlt : b < 128 := by
    simp only [safeB, Bool.or_eq_true, Bool.and_eq_true, decide_eq_true_eq] at h
    omega
  rw [goQuoteAux, goQuoteAux]
  simp only [List.length_cons]
  rw [goQuoteAuxF]
  simp [hlt]

theorem luaStrBody_close (rest : List Nat) :
    luaStrBody 34 (34 :: rest) = Except.ok ([], rest) := by
  rw [luaStrBody]
  simp only [List.length_cons]
  rw [luaStrBodyF_succ]
  simp

theorem luaStrBody_esc1 {c d : Nat} (h : escByte c = some d) (rest : List Nat) :
    luaStrBody 34 (92 :: c :: rest) = (luaStrBody 34 rest).map (fun p => (d :: p.1, p.2)) := by
  rw [luaStrBody, luaStrBody]
  simp only [List.length_cons]
  rw [luaStrBodyF_succ]
  simp only [h, show ((92 : Nat) == 34) = false from rfl,
    show ((92 : Nat) == 10 || (92 : Nat) == 13) = false from rfl,
    show ((92 : Nat) == 92) = true from rfl, if_true, if_false, Bool.false_eq_true]
  rw [luaStrBodyF_irrel (rest.length + 1 + 1) (rest.length + 1) 34 rest (by omega) (by omega)]

theorem luaStrBody_plain {b : Nat} (c1 : (b == 34) = false)
    (c2 : (b == 10 || b == 13) = false) (c3 : (b == 92) = false) (rest : List Nat) :
    luaStrBody 34 (b :: rest) = (luaStrBody 34 rest).map (fun p => (b :: p.1, p.2)) := by
  rw [luaStrBody, luaStrBody]
  simp only [List.length_cons]
  rw [luaStrBodyF_succ]
  simp [c1, c2, c3]

theorem luaStrBody_complete : ∀ s rest, safeStr s = true →
    luaStrBody 34 (goQuoteAux s ++ 34 :: rest) = Except.ok (s, rest) := by
  intro s
  induction s with
  | nil =>
    intro rest _
    rw [goQuoteAux]
    simp only [List.length_nil, Nat.zero_add, goQuoteAuxF, List.nil_append]
    simp [luaStrBody_close]
  | cons b s ih =>
    intro rest hsafe
    simp only [safeStr, List.all_cons, Bool.and_eq_true] at hsafe
    obtain ⟨hb, hs⟩ := hsafe
    have hs' : safeStr s = true := hs
    rw [goQuoteAux_cons_safe hb, List.append_assoc]
    have hbr : (7 ≤ b ∧ b ≤ 13) ∨ (32 ≤ b ∧ b ≤ 126) := by
      simp only [safeB, Bool.or_eq_true, Bool.and_eq_true, decide_eq_true_eq] at hb
      exact hb
    rcases hbr with hctl | hpr
    · obtain ⟨hlo, hhi⟩ := hctl
      have hesc : escRune b = [92, if b == 9 then 116 else if b == 10 then 110
          else if b == 11 then 118 else if b == 12 then 102 else if b == 13 then 114
          else if b == 7 then 97 else 98] := by
        interval_cases b <;> rfl
      have hescB : escByte (if b == 9 then 116 else if b == 10 then 110
          else if b == 11 then 118 else if b == 12 then 102 else if b == 13 then 114
          else if b == 7 then 97 else 98) = some b := by
        interval_cases b <;> rfl
      rw [hesc]
      simp only [List.cons_append, List.nil_append]
      rw [luaStrBody_esc1 hescB, ih rest hs']
      rfl
    · by_cases h34 : b = 34
      · subst h34
        have : escRune 34 = [92, 34] := rfl
        rw [this]
        simp only [List.cons_append, List.nil_append]
        rw [@luaStrBody_esc1 34 34 rfl (goQuoteAux s ++ 34 :: rest), ih rest hs']
        rfl
      · by_cases h92 : b = 92
        · subst h92
          have : escRune 92 = [92, 92] := rfl
          rw [this]
          simp only [List.cons_append, List.nil_append]
          rw [@luaStrBody_esc1 92 92 rfl (goQuoteAux s ++ 34 :: rest), ih rest hs']
          rfl
        · rw [escRune_print hpr.1 hpr.2 h34 h92]
          have c1 : (b == 34) = false := by simpa using h34
          have c2 : (b == 10 || b == 13) = false := by
            simp only [Bool.or_eq_false_iff, beq_eq_false_iff_ne, ne_eq]
            omega
          have c3 : (b == 92) = false := by simpa using h92
          simp only [List.cons_append, List.nil_append]
          rw [luaStrBody_plain c1 c2 c3, ih rest hs']
          rfl

/-! ## Parser completeness on rendered values -/

theorem parseExpr_brace {input r : List Nat} (f : Nat) (hsw : skipWs input = 123 :: r) :
    parseExpr (f + 1) input =
      (parseFields f r []).map (fun p => (PVal.val (TVal.table p.1), p.2)) := by
  rw [parseExpr.eq_def]
  simp [hsw]

theorem parseExpr_dquote {input r : List Nat} (f : Nat) (hsw : skipWs input = 34 :: r) :
    parseExpr (f + 1) input =
      (luaStrBody 34 r).map (fun p => (PVal.val (TVal.str p.1), p.2)) := by
  rw [parseExpr.eq_def]
  simp [hsw]

theorem parseExpr_minus {input r : List Nat} (f : Nat) (hsw : skipWs input = 45 :: r) :
    parseExpr (f + 1) input =
      (parseNum (skipWs r)).map (fun p => (PVal.val (TVal.number (-(p.1 : Int))), p.2)) := by
  rw [parseExpr.eq_def]
  simp [hsw]

theorem parseExpr_digit {input r : List Nat} {b : Nat} (f : Nat) (hd : isDigit b = true)
    (hsw : skipWs input = b :: r) :
    parseExpr (f + 1) input =
      (parseNum (b :: r)).map (fun p => (PVal.val (TVal.number (p.1 : Int)), p.2)) := by
  have c : (b == 123) = false ∧ (b == 34) = false ∧ (b == 39) = false ∧ (b == 45) = false := by
    simp only [isDigit, Bool.and_eq_true, decide_eq_true_eq] at hd
    refine ⟨?_, ?_, ?_, ?_⟩ <;> simp <;> omega
  rw [parseExpr.eq_def]
  simp [hsw, c.1, c.2.1, c.2.2.1, c.2.2.2, hd]

theorem parseExpr_true {input r : List Nat} (f : Nat) (hsw : skipWs input = 116 :: r)
    (htake : r.take 3 = [114, 117, 101])
    (hbnd : ((r.drop 3).head?.map identChar).getD false = false) :
    parseExpr (f + 1) input = Except.ok (PVal.val (TVal.boolean true), r.drop 3) := by
  simp only [List.head?_drop] at hbnd
  rw [parseExpr.eq_def]
  simp [hsw, htake, hbnd, isDigit]

theorem parseExpr_false {input r : List Nat} (f : Nat) (hsw : skipWs input = 102 :: r)
    (htake : r.take 4 = [97, 108, 115, 101])
    (hbnd : ((r.drop 4).head?.map identChar).getD false = false) :
    parseExpr (f + 1) input = Except.ok (PVal.val (TVal.boolean false), r.drop 4) := by
  simp only [List.head?_drop] at hbnd
  rw [parseExpr.eq_def]
  simp [hsw, htake, hbnd, isDigit]

theorem psize_pos : ∀ t, 1 ≤ psize t := by
  intro t
  cases t <;> simp [psize]

theorem psizeF_pos : ∀ es, 1 ≤ psizeF es := by
  intro es
  cases es with
  | nil => simp [psizeF]
  | cons e rest =>
    obtain ⟨k, v⟩ := e
    simp [psizeF]

theorem boundary_ident {rest : List Nat} (h : boundary rest = true) :
    (rest.head?.map identChar).getD false = false := by
  cases rest with
  | nil => rfl
  | cons b r =>
    simp only [boundary, List.head?, Bool.not_eq_true', Bool.or_eq_false_iff] at h
    simp [h.1]

theorem isKey_safeVal {k : TVal} (h : isKeyB k = true) : safeVal k = true := by
  cases k <;> simp_all [isKeyB, safeVal]

theorem setEntry_append {acc : List (TVal × TVal)} {k : TVal}
    (h : ∀ p ∈ acc, keyEq p.1 k = false) (v : TVal) :
    setEntry acc k v = acc ++ [(k, v)] := by
  induction acc with
  | nil => rfl
  | cons p acc ih =>
    obtain ⟨k0, v0⟩ := p
    have h0 : keyEq k0 k = false := h (k0, v0) (by simp)
    simp only [setEntry, h0, Bool.false_eq_true, if_false, List.cons_append, List.cons.injEq,
      true_and]
    exact ih (fun q hq => h q (by simp [hq]))

theorem neg_ofNat_succ (m : Nat) : -((m + 1 : Nat) : Int) = Int.negSucc m := by
  rw [Int.negSucc_eq]
  push_cast
  ring

theorem parseField_run {pe : List Nat → Except (List Nat) (PVal × List Nat)}
    {r r1 r2 r3 r4 : List Nat} {tk tv : TVal} (acc : List (TVal × TVal))
    (hk : pe r = Except.ok (PVal.val tk, r1))
    (hsw1 : skipWs r1 = 93 :: r2)
    (hsw2 : skipWs r2 = 61 :: r3)
    (hv : pe r3 = Except.ok (PVal.val tv, r4)) :
    parseFieldWith pe r acc = Except.ok (setEntry acc tk tv, r4) := by
  rw [parseFieldWith]
  simp [hk, hsw1, hsw2, hv]

theorem parseFields_close {input r : List Nat} (f : Nat) (acc : List (TVal × TVal))
    (hsw : skipWs input = 125 :: r) :
    parseFields (f + 1) input acc = Except.ok (acc, r) := by
  rw [parseFields.eq_def]
  simp [hsw]

theorem parseFields_step91 {input r r4 r5 : List Nat} {acc acc' : List (TVal × TVal)}
    (f : Nat) (hsw : skipWs input = 91 :: r)
    (hfield : parseFieldWith (parseExpr f) r acc = Except.ok (acc', r4))
    (hsw44 : skipWs r4 = 44 :: r5) :
    parseFields (f + 1) input acc = parseFields f r5 acc' := by
  rw [parseFields.eq_def]
  simp [hsw, hfield, hsw44]

theorem parse_complete :
    ∀ f, (∀ t rest, safeVal t = true → psize t ≤ f → boundary rest = true →
        parseExpr f (renderT t ++ rest) = Except.ok (PVal.val t, rest)) ∧
      (∀ es acc rest, safeEntries es = true → distinctKeys es = true →
        (∀ p ∈ acc, ∀ q ∈ es, keyEq p.1 q.1 = false) → psizeF es ≤ f →
        parseFields f (renderFields es ++ 125 :: rest) acc = Except.ok (acc ++ es, rest)) := by
  intro f
  induction f using Nat.strong_induction_on with
  | _ f ih =>
    rcases f with _ | g
    · constructor
      · intro t rest _ hps _
        have := psize_pos t
        omega
      · intro es acc rest _ _ _ hps
        have := psizeF_pos es
        omega
    · constructor
      · -- expression completeness
        intro t rest hsafe hps hbnd
        cases t with
        | boolean b =>
          cases b
          · -- false
            have hsw : skipWs (renderT (TVal.boolean false) ++ rest) =
                102 :: ([97, 108, 115, 101] ++ rest) := by
              simp only [renderT, List.cons_append]
              exact skipWs_not_ws (isWs_false_of_ge (by omega)) _
            rw [parseExpr_false g hsw (by simp) (by simpa using boundary_ident hbnd)]
            simp
          · -- true
            have hsw : skipWs (renderT (TVal.boolean true) ++ rest) =
                116 :: ([114, 117, 101] ++ rest) := by
              simp only [renderT, List.cons_append]
              exact skipWs_not_ws (isWs_false_of_ge (by omega)) _
            rw [parseExpr_true g hsw (by simp) (by simpa using boundary_ident hbnd)]
            simp
        | number n =>
          cases n with
          | ofNat m =>
            have hne := natBytes_ne_nil m
            rcases hd : natBytes m with _ | ⟨b, ds⟩
            · exact absurd hd hne
            · have hdig : isDigit b = true := natBytes_digits m b (by rw [hd]; simp)
              have hge : 33 ≤ b := by
                simp only [isDigit, Bool.and_eq_true, decide_eq_true_eq] at hdig
                omega
              have hsw : skipWs (renderT (TVal.number (Int.ofNat m)) ++ rest) =
                  b :: (ds ++ rest) := by
                simp only [renderT, intBytes, hd, List.cons_append]
                exact skipWs_not_ws (isWs_false_of_ge hge) _
              rw [parseExpr_digit g hdig hsw]
              have : (b :: (ds ++ rest)) = natBytes m ++ rest := by simp [hd]
              rw [this, parseNum_complete m rest hbnd]
              rfl
          | negSucc m =>
            have hne := natBytes_ne_nil (m + 1)
            have hsw : skipWs (renderT (TVal.number (Int.negSucc m)) ++ rest) =
                45 :: (natBytes (m + 1) ++ rest) := by
              simp only [renderT, intBytes, List.cons_append]
              exact skipWs_not_ws (isWs_false_of_ge (by omega)) _
            rw [parseExpr_minus g hsw]
            rcases hd : natBytes (m + 1) with _ | ⟨b, ds⟩
            · exact absurd hd hne
            · have hdig : isDigit b = true := natBytes_digits (m + 1) b (by rw [hd]; simp)
              have hge : 33 ≤ b := by
                simp only [isDigit, Bool.and_eq_true, decide_eq_true_eq] at hdig
                omega
              have hsw2 : skipWs (b :: (ds ++ rest)) = b :: (ds ++ rest) :=
                skipWs_not_ws (isWs_false_of_ge hge) _
              rw [List.cons_append, hsw2,
                show b :: (ds ++ rest) = natBytes (m + 1) ++ rest by simp [hd],
                parseNum_complete (m + 1) rest hbnd]
              show Except.ok (PVal.val (TVal.number (-((m + 1 : Nat) : Int))), rest) =
                Except.ok (PVal.val (TVal.number (Int.negSucc m)), rest)
              rw [neg_ofNat_succ]
        | str s =>
          have hsw : skipWs (renderT (TVal.str s) ++ rest) =
              34 :: (goQuoteAux s ++ 34 :: rest) := by
            simp only [renderT, goQuote, List.cons_append, List.append_assoc,
              List.singleton_append]
            exact skipWs_not_ws (isWs_false_of_ge (by omega)) _
          rw [parseExpr_dquote g hsw]
          have hss : safeStr s = true := by simpa [safeVal] using hsafe
          rw [luaStrBody_complete s rest hss]
          rfl
        | table es =>
          have hsw : skipWs (renderT (TVal.table es) ++ rest) =
              123 :: (renderFields es ++ 125 :: rest) := by
            simp only [renderT, List.cons_append, List.append_assoc, List.singleton_append]
            exact skipWs_not_ws (isWs_false_of_ge (by omega)) _
          rw [parseExpr_brace g hsw]
          simp only [safeVal, Bool.and_eq_true] at hsafe
          have hfield := (ih g (by omega)).2 es [] rest hsafe.2 hsafe.1
            (by intro p hp; simp at hp) (by simp [psize] at hps; omega)
          rw [hfield]
          rfl
      · -- field-list completeness
        intro es acc rest hsafe hdist hcross hps
        cases es with
        | nil =>
          have hsw : skipWs (renderFields [] ++ 125 :: rest) = 125 :: rest := by
            simp only [renderFields, List.nil_append]
            exact skipWs_not_ws (isWs_false_of_ge (by omega)) _
          rw [parseFields.eq_def]
          simp [hsw]
        | cons e rest' =>
          obtain ⟨k, v⟩ := e
          simp only [safeEntries, Bool.and_eq_true] at hsafe
          obtain ⟨⟨hkey, hvsafe⟩, hrest⟩ := hsafe
          simp only [distinctKeys, Bool.and_eq_true] at hdist
          obtain ⟨hknew, hdist'⟩ := hdist
          simp only [psizeF] at hps
          -- the rendered input
          have hshape : renderFields ((k, v) :: rest') ++ 125 :: rest =
              91 :: (renderT k ++ 93 :: 61 :: renderT v ++ 44 ::
                (renderFields rest' ++ 125 :: rest)) := by
            simp [renderFields, List.append_assoc]
          rw [hshape]
          have hsw : skipWs (91 :: (renderT k ++ 93 :: 61 :: renderT v ++ 44 ::
              (renderFields rest' ++ 125 :: rest))) = 91 :: (renderT k ++ 93 :: 61 ::
              renderT v ++ 44 :: (renderFields rest' ++ 125 :: rest)) :=
            skipWs_not_ws (isWs_false_of_ge (by omega)) _
          have hkexp := (ih g (by omega)).1 k
            (93 :: 61 :: renderT v ++ 44 :: (renderFields rest' ++ 125 :: rest))
            (isKey_safeVal hkey) (by omega) (by rfl)
          have hvexp := (ih g (by omega)).1 v
            (44 :: (renderFields rest' ++ 125 :: rest)) hvsafe (by omega) (by rfl)
          have hfield := parseField_run acc hkexp
            (skipWs_not_ws (isWs_false_of_ge (by omega)) _)
            (skipWs_not_ws (isWs_false_of_ge (by omega)) _) hvexp
          have hset : setEntry acc k v = acc ++ [(k, v)] := by
            refine setEntry_append ?_ v
            intro p hp
            have := hcross p hp (k, v) (by simp)
            simpa using this
          rw [hset] at hfield
          simp only [List.append_assoc, List.cons_append] at hsw hfield ⊢
          rw [parseFields_step91 g hsw hfield
            (skipWs_not_ws (isWs_false_of_ge (by omega)) _)]
          have hfields := (ih g (by omega)).2 rest' (acc ++ [(k, v)]) rest hrest hdist'
            ?_ (by omega)
          · rw [hfields]
            simp
          · intro p hp q hq
            rcases List.mem_append.mp hp with hacc | hnew
            · exact hcross p hacc q (by simp [hq])
            · simp at hnew
              subst hnew
              simpa using List.all_eq_true.mp hknew q hq


/-! ## Encoder completeness on tree-shaped heaps -/

/-- No table of the heap reaches itself. -/
def Acyclic (heap : Heap) : Prop := ∀ tid, ¬ TReach heap tid tid

theorem TReach_append {heap : Heap} {a b : Nat} (h : TReach heap a b) :
    ∀ {c : Nat} {k : LVal}, (k, LVal.table c) ∈ entriesOf heap b → TReach heap a c := by
  induction h with
  | step1 h1 =>
    intro c k hmem
    exact TReach.step h1 (TReach.step1 hmem)
  | step h1 _ ih =>
    intro c k hmem
    exact TReach.step h1 (ih hmem)

theorem reprEntriesWith_mem {rv : LVal → Option TVal} :
    ∀ {es ts}, reprEntriesWith rv es = some ts →
      ∀ e ∈ es, ∃ tk tv, rv e.1 = some tk ∧ rv e.2 = some tv := by
  intro es
  induction es with
  | nil =>
    intro ts _ e he
    simp at he
  | cons p rest ih =>
    intro ts hrep e he
    obtain ⟨k, v⟩ := p
    rw [reprEntriesWith] at hrep
    rcases hk : rv k with _ | tk <;> rw [hk] at hrep
    · simp at hrep
    rcases hv : rv v with _ | tv <;> rw [hv] at hrep
    · simp at hrep
    rcases hr : reprEntriesWith rv rest with _ | ts' <;> rw [hr] at hrep
    · simp at hrep
    rcases List.mem_cons.mp he with rfl | he'
    · exact ⟨tk, tv, hk, hv⟩
    · exact ih hr e he'

theorem hasIsFunction_false {heap : Heap} {f tid : Nat} {t : TVal}
    (h : reprVal heap f (LVal.table tid) = some t) : hasIsFunction heap tid = false := by
  cases hfn : hasIsFunction heap tid
  · rfl
  exfalso
  simp only [hasIsFunction] at hfn
  rcases hraw : rawGetStr (entriesOf heap tid) isBytes with _ | w <;> rw [hraw] at hfn
  · simp at hfn
  rcases w with _ | b | n | s | fid | tid' <;> try simp at hfn
  rcases f with _ | g
  · rw [reprVal] at h
    simp at h
  rw [reprVal] at h
  rcases hents : reprEntriesWith (reprVal heap g) (entriesOf heap tid) with _ | ts <;>
    rw [hents] at h
  · simp at h
  simp only [rawGetStr] at hraw
  rcases hfind : (entriesOf heap tid).find? (fun e => e.1 == LVal.str isBytes)
    with _ | e0 <;> rw [hfind] at hraw
  · simp at hraw
  have hmem := List.mem_of_find?_eq_some hfind
  obtain ⟨tk, tv, _, hv⟩ := reprEntriesWith_mem hents e0 hmem
  simp only [Option.map_some', Option.some.injEq] at hraw
  rw [hraw] at hv
  rw [reprVal] at hv
  simp at hv

theorem renderKey_of_repr {heap : Heap} {f : Nat} {key : LVal} {tk : TVal}
    (hk : reprVal heap f key = some tk) (hkey : isKeyB tk = true) :
    renderKey key = some (91 :: renderT tk ++ [93]) := by
  cases key with
  | nil => rw [reprVal] at hk; simp at hk
  | function fid => rw [reprVal] at hk; simp at hk
  | boolean bb =>
    rw [reprVal] at hk
    simp only [Option.some.injEq] at hk
    rw [← hk] at hkey
    simp [isKeyB] at hkey
  | number n =>
    rw [reprVal] at hk
    simp only [Option.some.injEq] at hk
    subst hk
    simp [renderKey, renderT]
  | str s =>
    rw [reprVal] at hk
    simp only [Option.some.injEq] at hk
    subst hk
    simp [renderKey, renderT]
  | table tid' =>
    rcases f with _ | g
    · rw [reprVal] at hk; simp at hk
    · rw [reprVal] at hk
      rcases hents : reprEntriesWith (reprVal heap g) (entriesOf heap tid') with _ | ts <;>
        rw [hents] at hk
      · simp at hk
      · simp only [Option.map_some', Option.some.injEq] at hk
        rw [← hk] at hkey
        simp [isKeyB] at hkey

theorem packEntries_complete (heap : Heap) (f : Nat)
    (ihf : ∀ tid t visited recursive, reprVal heap f (LVal.table tid) = some t →
      safeVal t = true → (∀ a ∈ visited, TReach heap a tid) →
      stringPack heap f tid recursive visited =
        some (Except.ok ((if recursive then [] else retBytes) ++ renderT t))) :
    ∀ es ts tid visited,
      reprEntriesWith (reprVal heap f) es = some ts → safeEntries ts = true →
      (∀ e ∈ es, e ∈ entriesOf heap tid) →
      (∀ a ∈ visited, a = tid ∨ TReach heap a tid) →
      ∀ b, packEntriesWith (stringPack heap f) heap es visited b none =
        some (b ++ renderFields ts, none) := by
  intro es
  induction es with
  | nil =>
    intro ts tid visited hrep hsafe _ _ b
    rw [reprEntriesWith] at hrep
    simp only [Option.some.injEq] at hrep
    subst hrep
    rw [packEntriesWith]
    simp [renderFields]
  | cons p rest ih =>
    intro ts tid visited hrep hsafe hmem hvis b
    obtain ⟨key, value⟩ := p
    rw [reprEntriesWith] at hrep
    rcases hk : reprVal heap f key with _ | tk <;> rw [hk] at hrep
    · simp at hrep
    rcases hv : reprVal heap f value with _ | tv <;> rw [hv] at hrep
    · simp at hrep
    rcases hr : reprEntriesWith (reprVal heap f) rest with _ | ts' <;> rw [hr] at hrep
    · simp at hrep
    simp only [Option.some.injEq] at hrep
    subst hrep
    simp only [safeEntries, Bool.and_eq_true] at hsafe
    obtain ⟨⟨hkey, hvsafe⟩, hrest⟩ := hsafe
    have hrk := renderKey_of_repr hk hkey
    have hmemrest : ∀ e ∈ rest, e ∈ entriesOf heap tid := by
      intro e he
      exact hmem e (by simp [he])
    have ihEq := ih ts' tid visited hr hrest hmemrest hvis
    cases value with
    | nil => rw [reprVal] at hv; simp at hv
    | function fid => rw [reprVal] at hv; simp at hv
    | boolean bb =>
      rw [reprVal] at hv
      simp only [Option.some.injEq] at hv
      subst hv
      cases bb <;>
        simp [packEntriesWith, hrk, ihEq, renderFields, renderT, List.append_assoc]
    | number n =>
      rw [reprVal] at hv
      simp only [Option.some.injEq] at hv
      subst hv
      simp [packEntriesWith, hrk, ihEq, renderFields, renderT, List.append_assoc]
    | str s =>
      rw [reprVal] at hv
      simp only [Option.some.injEq] at hv
      subst hv
      simp [packEntriesWith, hrk, ihEq, renderFields, renderT, List.append_assoc]
    | table tid' =>
      have hfn : hasIsFunction heap tid' = false := hasIsFunction_false hv
      have hchildvis : ∀ a ∈ visited, TReach heap a tid' := by
        intro a ha
        have hstep : (key, LVal.table tid') ∈ entriesOf heap tid :=
          hmem (key, LVal.table tid') (by simp)
        rcases hvis a ha with rfl | hreach
        · exact TReach.step1 hstep
        · exact TReach_append hreach hstep
      have hpack := ihf tid' tv visited true hv hvsafe hchildvis
      simp only [if_pos, List.nil_append] at hpack
      simp [packEntriesWith, hrk, hfn, hpack, ihEq, renderFields, List.append_assoc]

theorem pack_complete (heap : Heap) (hacyc : Acyclic heap) :
    ∀ f tid t visited recursive,
      reprVal heap f (LVal.table tid) = some t → safeVal t = true →
      (∀ a ∈ visited, TReach heap a tid) →
      stringPack heap f tid recursive visited =
        some (Except.ok ((if recursive then [] else retBytes) ++ renderT t)) := by
  intro f
  induction f with
  | zero =>
    intro tid t visited recursive hrep
    rw [reprVal] at hrep
    simp at hrep
  | succ g ihf =>
    intro tid t visited recursive hrep hsafe hvis
    rw [reprVal] at hrep
    rcases hents : reprEntriesWith (reprVal heap g) (entriesOf heap tid) with _ | ts <;>
      rw [hents] at hrep
    · simp at hrep
    simp only [Option.map_some', Option.some.injEq] at hrep
    subst hrep
    have hnotvis : visited.contains tid = false := by
      cases hcont : visited.contains tid
      · rfl
      · exfalso
        have hmemv : tid ∈ visited := by
          simpa using hcont
        exact hacyc tid (hvis tid hmemv)
    simp only [safeVal, Bool.and_eq_true] at hsafe
    obtain ⟨hdist, hsents⟩ := hsafe
    have hvis' : ∀ a ∈ tid :: visited, a = tid ∨ TReach heap a tid := by
      intro a ha
      rcases List.mem_cons.mp ha with rfl | ha'
      · exact Or.inl rfl
      · exact Or.inr (hvis a ha')
    have hEnt := packEntries_complete heap g ihf (entriesOf heap tid) ts tid
      (tid :: visited) hents hsents (fun e he => he) hvis' []
    have hnm : tid ∉ visited := by
      intro hm
      exact hacyc tid (hvis tid hm)
    rw [stringPack]
    simp [hnotvis, hnm, hEnt, renderT]

/-! ## Budget bounds for the decode of rendered text -/

theorem natBytes_len_pos (n : Nat) : 1 ≤ (natBytes n).length := by
  have := natBytes_ne_nil n
  cases h : natBytes n with
  | nil => exact absurd h this
  | cons b r => simp

theorem renderT_len_pos : ∀ t, 1 ≤ (renderT t).length := by
  intro t
  cases t with
  | boolean b => cases b <;> simp [renderT]
  | number n =>
    cases n with
    | ofNat m =>
      simp [renderT, intBytes]
      exact natBytes_len_pos m
    | negSucc m => simp [renderT, intBytes]
  | str s => simp [renderT, goQuote]
  | table es => simp [renderT]

mutual

theorem psize_le_len : ∀ t, psize t ≤ (renderT t).length
  | TVal.boolean b => by cases b <;> simp [psize, renderT]
  | TVal.number n => by
    have := renderT_len_pos (TVal.number n)
    simp [psize]
    omega
  | TVal.str s => by
    have := renderT_len_pos (TVal.str s)
    simp [psize]
    omega
  | TVal.table es => by
    have h := psizeF_le_len es
    simp [psize, renderT]
    omega
  termination_by t => sizeOf t

theorem psizeF_le_len : ∀ es, psizeF es ≤ (renderFields es).length + 1
  | [] => by simp [psizeF, renderFields]
  | (k, v) :: rest => by
    have hk := psize_le_len k
    have hv := psize_le_len v
    have hr := psizeF_le_len rest
    have hkp := renderT_len_pos k
    have hvp := renderT_len_pos v
    simp [psizeF, renderFields]
    omega
  termination_by es => sizeOf es

end

theorem decodeText_renderT (ts : List (TVal × TVal))
    (hsafe : safeVal (TVal.table ts) = true) :
    decodeText (retBytes ++ renderT (TVal.table ts)) = Except.ok ts := by
  have hdrop : dropRet (retBytes ++ renderT (TVal.table ts)) = renderT (TVal.table ts) := by
    simp [retBytes, renderT, dropRet]
  have hlen : psize (TVal.table ts) ≤ (renderT (TVal.table ts)).length + 1 := by
    have := psize_le_len (TVal.table ts)
    omega
  have hparse := (parse_complete ((renderT (TVal.table ts)).length + 1)).1
    (TVal.table ts) [] hsafe hlen rfl
  rw [List.append_nil] at hparse
  simp only [decodeText, hdrop, hparse]
  simp [skipWs]

/-! ## Error ordering over flat entry lists -/

theorem getLast?_shift (e : PackErr) (L : List PackErr) (g : Option PackErr) :
    (match (e :: L).getLast? with | some x => some x | none => g) =
      (match L.getLast? with | some x => some x | none => some e) := by
  cases L with
  | nil => rfl
  | cons y L' =>
    rw [List.getLast?_cons_cons]
    rcases h : (y :: L').getLast? with _ | x
    · simp only [List.getLast?_eq_none_iff] at h
      cases h
    · rfl

theorem packEntriesWith_flat (pack : Nat → Bool → List Nat → Option (Except PackErr (List Nat)))
    (heap : Heap) :
    ∀ es visited b gerr, flatEntries es = true →
      ∃ b', packEntriesWith pack heap es visited b gerr =
        some (b', match (es.filterMap entryErr).getLast? with
                  | some e => some e
                  | none => gerr) := by
  intro es
  induction es with
  | nil =>
    intro visited b gerr _
    exact ⟨b, rfl⟩
  | cons p rest ih =>
    intro visited b gerr hflat
    obtain ⟨key, value⟩ := p
    simp only [flatEntries, List.all_cons, Bool.and_eq_true] at hflat
    obtain ⟨hval, hrest⟩ := hflat
    have hrest' : flatEntries rest = true := hrest
    rcases hrk : renderKey key with _ | kb
    · -- invalid key: error recorded, fold continues
      obtain ⟨b', hb'⟩ := ih visited b (some PackErr.invalidKey) hrest'
      refine ⟨b', ?_⟩
      simp only [packEntriesWith, hrk, hb']
      have : entryErr (key, value) = some PackErr.invalidKey := by
        simp [entryErr, hrk]
      simp only [List.filterMap_cons, this]
      rw [getLast?_shift]
    · cases value with
      | table tid' => simp at hval
      | nil =>
        obtain ⟨b', hb'⟩ := ih visited b (some (PackErr.unsupported kb)) hrest'
        refine ⟨b', ?_⟩
        simp only [packEntriesWith, hrk, hb']
        have : entryErr (key, LVal.nil) = some (PackErr.unsupported kb) := by
          simp [entryErr, hrk]
        simp only [List.filterMap_cons, this]
        rw [getLast?_shift]
      | function fid =>
        obtain ⟨b', hb'⟩ := ih visited b (some (PackErr.unsupported kb)) hrest'
        refine ⟨b', ?_⟩
        simp only [packEntriesWith, hrk, hb']
        have : entryErr (key, LVal.function fid) = some (PackErr.unsupported kb) := by
          simp [entryErr, hrk]
        simp only [List.filterMap_cons, this]
        rw [getLast?_shift]
      | boolean bb =>
        have : entryErr (key, LVal.boolean bb) = none := by simp [entryErr, hrk]
        cases bb
        · obtain ⟨b', hb'⟩ := ih visited
            (b ++ kb ++ 61 :: [102, 97, 108, 115, 101] ++ [44]) gerr hrest'
          refine ⟨b', ?_⟩
          simp only [packEntriesWith, hrk, hb']
          simp only [List.filterMap_cons, this]
        · obtain ⟨b', hb'⟩ := ih visited
            (b ++ kb ++ 61 :: [116, 114, 117, 101] ++ [44]) gerr hrest'
          refine ⟨b', ?_⟩
          simp only [packEntriesWith, hrk, hb']
          simp only [List.filterMap_cons, this]
      | number n =>
        have : entryErr (key, LVal.number n) = none := by simp [entryErr, hrk]
        obtain ⟨b', hb'⟩ := ih visited (b ++ kb ++ 61 :: intBytes n ++ [44]) gerr hrest'
        refine ⟨b', ?_⟩
        simp only [packEntriesWith, hrk, hb']
        simp only [List.filterMap_cons, this]
      | str st =>
        have : entryErr (key, LVal.str st) = none := by simp [entryErr, hrk]
        obtain ⟨b', hb'⟩ := ih visited (b ++ kb ++ 61 :: goQuote st ++ [44]) gerr hrest'
        refine ⟨b', ?_⟩
        simp only [packEntriesWith, hrk, hb']
        simp only [List.filterMap_cons, this]

theorem packEntriesWithW_flat (pack : Nat → Bool → Option (Except PackErr (List Nat)))
    (heap : Heap) :
    ∀ es b ferr, flatEntries es = true →
      ∃ b', packEntriesWithW pack heap es b ferr =
        some (b', match ferr with
                  | some e => some e
                  | none => (es.filterMap entryErr).head?) := by
  intro es
  induction es with
  | nil =>
    intro b ferr _
    refine ⟨b, ?_⟩
    rw [packEntriesWithW]
    cases ferr <;> rfl
  | cons p rest ih =>
    intro b ferr hflat
    obtain ⟨key, value⟩ := p
    simp only [flatEntries, List.all_cons, Bool.and_eq_true] at hflat
    obtain ⟨hval, hrest⟩ := hflat
    have hrest' : flatEntries rest = true := hrest
    rcases ferr with _ | e0
    · rcases hrk : renderKey key with _ | kb
      · obtain ⟨b', hb'⟩ := ih b (some PackErr.invalidKey) hrest'
        refine ⟨b', ?_⟩
        simp only [packEntriesWithW, hrk, hb']
        have : entryErr (key, value) = some PackErr.invalidKey := by
          simp [entryErr, hrk]
        simp only [List.filterMap_cons, this, List.head?_cons]
      · cases value with
        | table tid' => simp at hval
        | nil =>
          obtain ⟨b', hb'⟩ := ih b (some (PackErr.unsupported kb)) hrest'
          refine ⟨b', ?_⟩
          simp only [packEntriesWithW, hrk, hb']
          have : entryErr (key, LVal.nil) = some (PackErr.unsupported kb) := by
            simp [entryErr, hrk]
          simp only [List.filterMap_cons, this, List.head?_cons]
        | function fid =>
          obtain ⟨b', hb'⟩ := ih b (some (PackErr.unsupported kb)) hrest'
          refine ⟨b', ?_⟩
          simp only [packEntriesWithW, hrk, hb']
          have : entryErr (key, LVal.function fid) = some (PackErr.unsupported kb) := by
            simp [entryErr, hrk]
          simp only [List.filterMap_cons, this, List.head?_cons]
        | boolean bb =>
          have : entryErr (key, LVal.boolean bb) = none := by simp [entryErr, hrk]
          cases bb
          · obtain ⟨b', hb'⟩ := ih (b ++ kb ++ 61 :: [102, 97, 108, 115, 101] ++ [44]) none hrest'
            refine ⟨b', ?_⟩
            simp only [packEntriesWithW, hrk, hb']
            simp only [List.filterMap_cons, this]
          · obtain ⟨b', hb'⟩ := ih (b ++ kb ++ 61 :: [116, 114, 117, 101] ++ [44]) none hrest'
            refine ⟨b', ?_⟩
            simp only [packEntriesWithW, hrk, hb']
            simp only [List.filterMap_cons, this]
        | number n =>
          have : entryErr (key, LVal.number n) = none := by simp [entryErr, hrk]
          obtain ⟨b', hb'⟩ := ih (b ++ kb ++ 61 :: intBytes n ++ [44]) none hrest'
          refine ⟨b', ?_⟩
          simp only [packEntriesWithW, hrk, hb']
          simp only [List.filterMap_cons, this]
        | str st =>
          have : entryErr (key, LVal.str st) = none := by simp [entryErr, hrk]
          obtain ⟨b', hb'⟩ := ih (b ++ kb ++ 61 :: goQuote st ++ [44]) none hrest'
          refine ⟨b', ?_⟩
          simp only [packEntriesWithW, hrk, hb']
          simp only [List.filterMap_cons, this]
    · exact ⟨b, by rw [packEntriesWithW]⟩

theorem stringPack_flat_lastErr {es : List (LVal × LVal)} {e : PackErr}
    (hflat : flatEntries es = true)
    (hlast : (es.filterMap entryErr).getLast? = some e) :
    stringPack [es] 1 0 false [] = some (Except.error e) := by
  obtain ⟨b', hb'⟩ := packEntriesWith_flat (stringPack [es] 0) [es] es [0] [] none hflat
  rw [stringPack]
  simp only [show entriesOf [es] 0 = es from rfl, hb', hlast]
  try rfl

theorem stringPackW_flat_firstErr {es : List (LVal × LVal)} {e : PackErr}
    (hflat : flatEntries es = true)
    (hfirst : (es.filterMap entryErr).head? = some e) :
    stringPackW [es] 1 0 false = some (Except.error e) := by
  obtain ⟨b', hb'⟩ := packEntriesWithW_flat (stringPackW [es] 0) [es] es [] none hflat
  rw [stringPackW]
  simp only [show entriesOf [es] 0 = es from rfl, hb', hfirst]
  try rfl

/-! ## The claims -/

/-- A one-entry table holding itself: `t.self = t` (`self` is the bytes
`115 101 108 102`). -/
def cyclicHeap : Heap := [[(LVal.str [115, 101, 108, 102], LVal.table 0)]]

/-- C1 (counterexample): the round-trip fails on a table whose string value
is the UTF-8 encoding of U+00AD (bytes `194 173`).  `Marshal` encodes it as
a backslash-u escape of four hex digits inside the emitted text, and the decoder's
Lua lexer rejects `\u` as an invalid escape sequence, so decode of
encode of this table is an error rather than the table. -/
theorem roundtrip_controlByte_fails :
    stringPack [[(LVal.str [107], LVal.str [194, 173])]] 2 0 false [] =
      some (Except.ok [114, 101, 116, 117, 114, 110, 32, 123, 91, 34, 107, 34, 93, 61,
        34, 92, 117, 48, 48, 97, 100, 34, 44, 125]) ∧
    decodeText [114, 101, 116, 117, 114, 110, 32, 123, 91, 34, 107, 34, 93, 61,
        34, 92, 117, 48, 48, 97, 100, 34, 44, 125] =
      Except.error (DecodeErr.malformed 9) :=
  ⟨rfl, rfl⟩

/-- C1 (amended): for every acyclic heap whose root unfolds (at some depth)
to a tree with no callable values, integer numbers, string- or number-keys
with duplicate-free key lists, and strings over the bytes whose Go escaping
the Lua lexer inverts (printable ASCII and the named control escapes BEL
through CR), `Marshal`'s packer succeeds and the decoder returns exactly the
unfolded tree — equality on the nose, which entails equality under any
key-order-insensitive comparison. -/
theorem roundtrip_safe_subset (heap : Heap) (f root : Nat) (ts : List (TVal × TVal))
    (hrep : reprVal heap f (LVal.table root) = some (TVal.table ts))
    (hsafe : safeVal (TVal.table ts) = true)
    (hacyc : Acyclic heap) :
    stringPack heap f root false [] =
      some (Except.ok (retBytes ++ renderT (TVal.table ts))) ∧
    decodeText (retBytes ++ renderT (TVal.table ts)) = Except.ok ts := by
  constructor
  · have h := pack_complete heap hacyc f root (TVal.table ts) [] false hrep hsafe
      (by intro a ha; simp at ha)
    simpa using h
  · exact decodeText_renderT ts hsafe

/-- Witness for the amended C1 at the table with entry `a = 5`. -/
theorem roundtrip_safe_subset_witness :
    stringPack [[(LVal.str [97], LVal.number 5)]] 2 0 false [] =
      some (Except.ok (retBytes ++ renderT (TVal.table [(TVal.str [97], TVal.number 5)]))) ∧
    decodeText (retBytes ++ renderT (TVal.table [(TVal.str [97], TVal.number 5)])) =
      Except.ok [(TVal.str [97], TVal.number 5)] := by
  refine roundtrip_safe_subset [[(LVal.str [97], LVal.number 5)]] 2 0
    [(TVal.str [97], TVal.number 5)] rfl rfl ?_
  intro tid h
  cases h with
  | step1 hm =>
    rcases tid with _ | t <;> simp [entriesOf] at hm
  | step hm _ =>
    rcases tid with _ | t <;> simp [entriesOf] at hm

/-- C2 (counterexample): the decoder evaluates rather than rejects input
outside the table-literal grammar of the specification.  The input
`return {['foo']="bar",}` uses a single-quoted string, a construct absent
from the grammar, yet it decodes successfully to the table mapping `foo` to
`bar` — the behavior the repository's own reader test expects. -/
theorem decoder_accepts_outside_grammar :
    decodeText [114, 101, 116, 117, 114, 110, 32, 123, 91, 39, 102, 111, 111, 39, 93,
        61, 34, 98, 97, 114, 34, 44, 125] =
      Except.ok [(TVal.str [102, 111, 111], TVal.str [98, 97, 114])] := rfl

/-- C2 (amended): the decoder hands the decompressed text to a Lua
interpreter, so any Lua expression the interpreter accepts is evaluated; in
particular a single-quoted string literal — outside the specification's
grammar — decodes to exactly the same table as its double-quoted form. -/
theorem decoder_equates_quote_styles :
    decodeText [114, 101, 116, 117, 114, 110, 32, 123, 91, 39, 102, 111, 111, 39, 93,
        61, 34, 98, 97, 114, 34, 44, 125] =
      decodeText [114, 101, 116, 117, 114, 110, 32, 123, 91, 34, 102, 111, 111, 34, 93,
        61, 34, 98, 97, 114, 34, 44, 125] ∧
    decodeText [114, 101, 116, 117, 114, 110, 32, 123, 91, 34, 102, 111, 111, 34, 93,
        61, 34, 98, 97, 114, 34, 44, 125] =
      Except.ok [(TVal.str [102, 111, 111], TVal.str [98, 97, 114])] :=
  ⟨rfl, rfl⟩

/-- C3: on the self-referential table `t.self = t`, the `Writer.Write`
encoder of `src/unnamed/part_000` — whose `stringPack` has no visited set —
never finishes at any recursion depth (the Go original recurses until the
stack overflows), instead of failing with the cyclic-reference error; the
`Marshal` encoder of `src/marshal.go` on the same table returns the
cyclic-reference error (wrapped with the offending key) as the claim and the
specification demand. -/
theorem writer_cycle_diverges_marshal_errors :
    (∀ f r, stringPackW cyclicHeap f 0 r = none) ∧
    stringPack cyclicHeap 3 0 false [] =
      some (Except.error (PackErr.wrap [91, 34, 115, 101, 108, 102, 34, 93]
        PackErr.cyclic)) ∧
    PackErr.isCyclic (PackErr.wrap [91, 34, 115, 101, 108, 102, 34, 93]
      PackErr.cyclic) = true := by
  refine ⟨?_, rfl, rfl⟩
  intro f
  induction f with
  | zero => intro r; rfl
  | succ g ih =>
    intro r
    rw [stringPackW]
    have h0 : stringPackW cyclicHeap g 0 true = none := ih true
    rw [show entriesOf cyclicHeap 0 =
      [(LVal.str [115, 101, 108, 102], LVal.table 0)] from rfl]
    rw [packEntriesWithW]
    simp [h0, show hasIsFunction cyclicHeap 0 = false from rfl,
      show renderKey (LVal.str [115, 101, 108, 102]) =
        some [91, 34, 115, 101, 108, 102, 34, 93] from rfl]

/-- Witness for C3 at recursion depth five. -/
theorem writer_cycle_diverges_witness : stringPackW cyclicHeap 5 0 false = none :=
  writer_cycle_diverges_marshal_errors.1 5 false

/-- C4 (counterexample): `Marshal` does not return the first error.  On a
table whose array part holds functions at keys 1 and 2 (two erroneous
entries, iterated in that order), the `ForEach` callback of `src/marshal.go`
keeps running after the first error and overwrites it, returning the error
for key `[2]`; the writer-side encoder, which does stop, shows the first
error was the one for key `[1]`. -/
theorem marshal_returns_last_error :
    stringPack [[(LVal.number 1, LVal.function 0), (LVal.number 2, LVal.function 1)]]
        1 0 false [] =
      some (Except.error (PackErr.unsupported [91, 50, 93])) ∧
    stringPackW [[(LVal.number 1, LVal.function 0), (LVal.number 2, LVal.function 1)]]
        1 0 false =
      some (Except.error (PackErr.unsupported [91, 49, 93])) ∧
    PackErr.unsupported [91, 50, 93] ≠ PackErr.unsupported [91, 49, 93] :=
  ⟨rfl, rfl, by decide⟩

/-- C4 (amended): over a table with no nested-table values, the
`Writer.Write` encoder returns the first per-entry error in iteration order
and skips the remaining entries, while the `Marshal` encoder continues the
traversal and returns the last per-entry error; in both encoders any error
aborts the encode with no output. -/
theorem encoder_error_order (es : List (LVal × LVal)) (e e' : PackErr)
    (hflat : flatEntries es = true) :
    ((es.filterMap entryErr).getLast? = some e →
      stringPack [es] 1 0 false [] = some (Except.error e)) ∧
    ((es.filterMap entryErr).head? = some e' →
      stringPackW [es] 1 0 false = some (Except.error e')) :=
  ⟨fun hlast => stringPack_flat_lastErr hflat hlast,
   fun hfirst => stringPackW_flat_firstErr hflat hfirst⟩

/-- Witness for the amended C4 at the two-function table of the
counterexample. -/
theorem encoder_error_order_witness :
    stringPack [[(LVal.number 1, LVal.function 0), (LVal.number 2, LVal.function 1)]]
        1 0 false [] =
      some (Except.error (PackErr.unsupported [91, 50, 93])) ∧
    stringPackW [[(LVal.number 1, LVal.function 0), (LVal.number 2, LVal.function 1)]]
        1 0 false =
      some (Except.error (PackErr.unsupported [91, 49, 93])) :=
  ⟨(encoder_error_order [(LVal.number 1, LVal.function 0), (LVal.number 2, LVal.function 1)]
      (PackErr.unsupported [91, 50, 93]) (PackErr.unsupported [91, 49, 93]) rfl).1 rfl,
   (encoder_error_order [(LVal.number 1, LVal.function 0), (LVal.number 2, LVal.function 1)]
      (PackErr.unsupported [91, 50, 93]) (PackErr.unsupported [91, 49, 93]) rfl).2 rfl⟩

/-- C5 (counterexample): the encoder does not escape every byte outside
printable ASCII.  The two bytes `195 169` (UTF-8 for the printable code
point U+00E9) pass through `strconv.Quote` unescaped — the output contains
no backslash at all. -/
theorem quote_nonascii_unescaped :
    goQuote [195, 169] = [34, 195, 169, 34] ∧
    (goQuote [195, 169]).contains 92 = false :=
  ⟨rfl, rfl⟩

/-- C5 (amended): the encoder passes printable ASCII through unescaped
except the quote and the backslash, which are backslash-escaped, and emits
named escapes for the C0 controls BEL through CR; printable non-ASCII UTF-8
passes through unescaped.  The decoder's string lexer inverts this escaping
exactly on strings of printable-ASCII and named-control bytes, so
round-tripping of string bodies is exact on that subset (not on arbitrary
byte sequences). -/
theorem quote_escaping_subset :
    (∀ s rest, safeStr s = true →
      luaStrBody 34 (goQuoteAux s ++ 34 :: rest) = Except.ok (s, rest)) ∧
    (∀ b, 32 ≤ b → b ≤ 126 → b ≠ 34 → b ≠ 92 → goQuote [b] = [34, b, 34]) ∧
    goQuote [34] = [34, 92, 34, 34] ∧
    goQuote [92] = [34, 92, 92, 34] ∧
    goQuote [10] = [34, 92, 110, 34] := by
  refine ⟨luaStrBody_complete, ?_, rfl, rfl, rfl⟩
  intro b h1 h2 h3 h4
  have hesc := escRune_print h1 h2 h3 h4
  have hsafe : safeB b = true := by
    simp only [safeB, Bool.or_eq_true, Bool.and_eq_true, decide_eq_true_eq]
    omega
  rw [goQuote, goQuoteAux_cons_safe hsafe, hesc]
  rfl

/-- Witness for the amended C5 at the string `a` `LF` `b` and the byte `a`. -/
theorem quote_escaping_subset_witness :
    luaStrBody 34 (goQuoteAux [97, 10, 98] ++ 34 :: []) = Except.ok ([97, 10, 98], []) ∧
    goQuote [97] = [34, 97, 34] :=
  ⟨quote_escaping_subset.1 [97, 10, 98] [] rfl,
   quote_escaping_subset.2.1 97 (by omega) (by omega) (by omega) (by omega)⟩

/-- C7: a nested table carrying a function-valued `is` entry is encoded as
the literal string `MANUAL_REPLACE` without being descended into — the
output does not depend on anything else the nested table holds, which may
even include a reference back to the root — and decoding the encoder's
output yields the plain string `MANUAL_REPLACE` under the same key. -/
theorem placeholder_substitution_roundtrip (k : List Nat) (inner : List (LVal × LVal))
    (fid : Nat) (hk : safeStr k = true)
    (hfn : rawGetStr inner isBytes = some (LVal.function fid)) :
    stringPack [[(LVal.str k, LVal.table 1)], inner] 2 0 false [] =
      some (Except.ok (retBytes ++ renderT (TVal.table [(TVal.str k, TVal.str mrBytes)]))) ∧
    decodeText (retBytes ++ renderT (TVal.table [(TVal.str k, TVal.str mrBytes)])) =
      Except.ok [(TVal.str k, TVal.str mrBytes)] := by
  constructor
  · have hfn' : hasIsFunction [[(LVal.str k, LVal.table 1)], inner] 1 = true := by
      simp [hasIsFunction, show entriesOf [[(LVal.str k, LVal.table 1)], inner] 1 = inner
        from rfl, hfn]
    rw [stringPack]
    rw [show entriesOf [[(LVal.str k, LVal.table 1)], inner] 0 =
      [(LVal.str k, LVal.table 1)] from rfl]
    rw [packEntriesWith]
    simp only [renderKey, hfn', if_true, packEntriesWith]
    simp [renderT, renderFields, mrQuoted,
      show goQuote mrBytes = 34 :: mrBytes ++ [34] from rfl, List.append_assoc]
  · refine decodeText_renderT [(TVal.str k, TVal.str mrBytes)] ?_
    simp [safeVal, safeEntries, distinctKeys, isKeyB, hk]
    rfl

/-- Witness for C7 at key `foo` and an inner table holding only the `is`
function. -/
theorem placeholder_substitution_witness :
    stringPack [[(LVal.str [102, 111, 111], LVal.table 1)],
        [(LVal.str isBytes, LVal.function 0)]] 2 0 false [] =
      some (Except.ok (retBytes ++
        renderT (TVal.table [(TVal.str [102, 111, 111], TVal.str mrBytes)]))) ∧
    decodeText (retBytes ++
        renderT (TVal.table [(TVal.str [102, 111, 111], TVal.str mrBytes)])) =
      Except.ok [(TVal.str [102, 111, 111], TVal.str mrBytes)] :=
  placeholder_substitution_roundtrip [102, 111, 111]
    [(LVal.str isBytes, LVal.function 0)] 0 rfl rfl

/-- C8: decode of `return "foo"` — whose top-level expression is a string,
not a table — fails with the not-a-table error (the code's
`unable to typecast as lua.LTable`); decode of the syntactically invalid
input `@` fails with a malformed error carrying offset 0; in general every
input the expression evaluator rejects yields a malformed error carrying the
byte offset of the failure, and every input that evaluates to a non-table
value yields the not-a-table error. -/
theorem decode_error_taxonomy :
    decodeText [114, 101, 116, 117, 114, 110, 32, 34, 102, 111, 111, 34] =
      Except.error DecodeErr.notATable ∧
    decodeText [64] = Except.error (DecodeErr.malformed 0) ∧
    (∀ input rem, parseExpr ((dropRet input).length + 1) (dropRet input) =
        Except.error rem →
      decodeText input =
        Except.error (DecodeErr.malformed ((dropRet input).length - rem.length))) ∧
    (∀ input v rest, parseExpr ((dropRet input).length + 1) (dropRet input) =
        Except.ok (v, rest) → skipWs rest = [] →
      (∀ es, v ≠ PVal.val (TVal.table es)) →
      decodeText input = Except.error DecodeErr.notATable) := by
  refine ⟨rfl, rfl, ?_, ?_⟩
  · intro input rem h
    simp [decodeText, h]
  · intro input v rest hparse hrest hnt
    simp only [decodeText, hparse, hrest]
    rcases v with _ | t
    · rfl
    · cases t with
      | table es => exact absurd rfl (hnt es)
      | boolean bb => rfl
      | number n => rfl
      | str s => rfl

/-- Witness for C8's general clauses at the inputs `[` (a parse failure at
offset 1) and `true` (a non-table value). -/
theorem decode_error_taxonomy_witness :
    decodeText [91] = Except.error (DecodeErr.malformed 0) ∧
    decodeText [116, 114, 117, 101] = Except.error DecodeErr.notATable :=
  ⟨decode_error_taxonomy.2.2.1 [91] [91] rfl,
   decode_error_taxonomy.2.2.2 [116, 114, 117, 101] (PVal.val (TVal.boolean true)) []
     rfl rfl (fun es h => by cases h)⟩

/-- C9: `UnmarshalRead` writes through its `out` parameter only after every
error check has passed: when it returns an error the caller's table is the
one passed in, and on success the caller's table is exactly the decoded
table. -/
theorem unmarshal_out_atomic :
    (∀ input out e, (UnmarshalRead input out).1 = Except.error e →
      (UnmarshalRead input out).2 = out) ∧
    (∀ input out es, decodeText input = Except.ok es →
      UnmarshalRead input out = (Except.ok (), es)) := by
  constructor
  · intro input out e h
    rcases hd : decodeText input with e' | es <;> simp [UnmarshalRead, hd] at h ⊢
  · intro input out es h
    simp [UnmarshalRead, h]

/-- Witness for C9: the invalid input `@` leaves `out` untouched; the valid
input `return {}` overwrites `out` with the decoded empty table. -/
theorem unmarshal_out_atomic_witness :
    (UnmarshalRead [64] [(TVal.str [120], TVal.number 1)]).2 =
      [(TVal.str [120], TVal.number 1)] ∧
    UnmarshalRead [114, 101, 116, 117, 114, 110, 32, 123, 125]
        [(TVal.str [120], TVal.number 1)] = (Except.ok (), []) :=
  ⟨unmarshal_out_atomic.1 [64] [(TVal.str [120], TVal.number 1)]
     (DecodeErr.malformed 0) rfl,
   unmarshal_out_atomic.2 [114, 101, 116, 117, 114, 110, 32, 123, 125]
     [(TVal.str [120], TVal.number 1)] [] rfl⟩

/-- C10: the placeholder test applies only to table-typed values found while
folding over a table's entries, never to the table passed to the encoder
itself.  A root whose own `is` entry holds a function is not replaced by the
`MANUAL_REPLACE` literal: the function value falls through the value switch
and the encode fails with the unsupported-value error naming the `is` key —
for any surrounding error-free flat entries before and after it. -/
theorem root_is_function_unsupported (pre post : List (LVal × LVal)) (fid : Nat)
    (hpreF : flatEntries pre = true) (hpostF : flatEntries post = true)
    (hpreE : pre.filterMap entryErr = []) (hpostE : post.filterMap entryErr = []) :
    stringPack [pre ++ (LVal.str isBytes, LVal.function fid) :: post] 1 0 false [] =
      some (Except.error (PackErr.unsupported (91 :: goQuote isBytes ++ [93]))) := by
  refine stringPack_flat_lastErr ?_ ?_
  · simp only [flatEntries, List.all_append, List.all_cons, Bool.and_eq_true]
    exact ⟨hpreF, by simp, hpostF⟩
  · have hmid : entryErr (LVal.str isBytes, LVal.function fid) =
        some (PackErr.unsupported (91 :: goQuote isBytes ++ [93])) := by
      simp [entryErr, renderKey]
    simp [List.filterMap_append, List.filterMap_cons, hpreE, hpostE, hmid]

/-- Witness for C10 at the bare root holding only the `is` function. -/
theorem root_is_function_witness :
    stringPack [[(LVal.str isBytes, LVal.function 7)]] 1 0 false [] =
      some (Except.error (PackErr.unsupported (91 :: goQuote isBytes ++ [93]))) :=
  root_is_function_unsupported [] [] 7 rfl rfl rfl rfl
